import Mathlib

/-!
Verification of the pyFIS flip-dot panel codec (`core.py`, the calibrator's
`segment_logic.py` and `command_codec.py`).

The panel is a 26×48 bit matrix partitioned into four 13×24 segments.  Each
segment routes two interleaved pixel "types" (0x90 and 0x10) to two bus
addresses; an optional hole pixel at segment-local (12, 23) consumes no bit.
The codec converts matrix ↔ per-(address, type) bit queues ↔ wire payloads,
with per-byte bit reversal on the wire.

All definitions are shallow embeddings of the Python source.  Machine bytes
are modelled as `Nat` with explicit `% 256`; Python lists/deques of bits are
`List Nat`; the insertion-ordered dict keyed by (addr, type) is an
association list.  The hole feature flag (`ENABLE_HOLE_PIXEL` in the source)
is passed explicitly as a `Bool` parameter named `hole`.
-/

set_option maxRecDepth 40000

namespace PyFIS

/-- Pixel type byte 0x90. -/
def TYPE_90 : Nat := 0x90

/-- Pixel type byte 0x10. -/
def TYPE_10 : Nat := 0x10

/-- Number of logical matrix rows. -/
def MATRIX_ROWS : Nat := 26

/-- Number of logical matrix columns. -/
def MATRIX_COLS : Nat := 48

/-- The value of the hole feature flag shipped in `core.py`. -/
def ENABLE_HOLE_PIXEL : Bool := false

/-- One entry of the `SEGMENTS` table in `core.py`; `row_end`/`col_end` are
exclusive. -/
structure Segment where
  name : String
  row_start : Nat
  row_end : Nat
  col_start : Nat
  col_end : Nat
  addr_90 : Nat
  addr_10 : Nat
deriving DecidableEq, Repr

/-- The "top-left" entry of the `SEGMENTS` table in `core.py`. -/
def segTL : Segment :=
  { name := "top-left", row_start := 0, row_end := 13,
    col_start := 0, col_end := 24, addr_90 := 0x7, addr_10 := 0x3 }

/-- The "top-right" entry of the `SEGMENTS` table in `core.py`. -/
def segTR : Segment :=
  { name := "top-right", row_start := 0, row_end := 13,
    col_start := 24, col_end := 48, addr_90 := 0x8, addr_10 := 0x4 }

/-- The "bottom-left" entry of the `SEGMENTS` table in `core.py`. -/
def segBL : Segment :=
  { name := "bottom-left", row_start := 13, row_end := 26,
    col_start := 0, col_end := 24, addr_90 := 0x6, addr_10 := 0x2 }

/-- The "bottom-right" entry of the `SEGMENTS` table in `core.py`. -/
def segBR : Segment :=
  { name := "bottom-right", row_start := 13, row_end := 26,
    col_start := 24, col_end := 48, addr_90 := 0x5, addr_10 := 0x1 }

/-- The four-entry segment table of `core.py`. -/
def SEGMENTS : List Segment :=
  [segTL, segTR, segBL, segBR]

/-- `logical_type_for_segment_pixel` of `core.py`, with the module-level
`ENABLE_HOLE_PIXEL` flag passed explicitly as `hole`.  Returns `none` for the
hole pixel, otherwise the type byte. -/
def logical_type_for_segment_pixel (hole : Bool) (seg_row seg_col : Nat) :
    Option Nat :=
  if hole = true ∧ seg_row = 12 ∧ seg_col = 23 then none
  else if seg_row < 12 then
    some (if seg_row % 2 = 0 then TYPE_90 else TYPE_10)
  else
    some (if seg_col % 2 = 0 then TYPE_90 else TYPE_10)

/-- `reverse_byte` of `core.py`: reverse the bit order of one byte.  The
source's `rb & 0xFF` is modelled as `% 256`. -/
def reverse_byte (b : Nat) : Nat :=
  ((List.range 8).foldl (fun rb i => rb * 2 + (b / 2 ^ i) % 2) 0) % 256

/-- The inner accumulation of `bits_to_data_bytes`: build a byte from up to
eight bits with the first bit as most significant (`b_rev` in the source). -/
def pack8 (chunk : List Nat) : Nat :=
  chunk.foldl (fun acc bit => acc * 2 + bit % 2) 0

/-- Right-pad a list with zeros to length `n` (the zero padding the source
applies to short chunks). -/
def padTo (n : Nat) (l : List Nat) : List Nat :=
  l ++ List.replicate (n - l.length) 0

/-- `bits_to_data_bytes` of `core.py`: take the bits eight at a time
(zero-padding a short final chunk), pack each chunk with the first bit as
MSB, then reverse each byte for the wire. -/
def bits_to_data_bytes : List Nat → List Nat
  | [] => []
  | b0 :: b1 :: b2 :: b3 :: b4 :: b5 :: b6 :: b7 :: rest =>
      reverse_byte (pack8 [b0, b1, b2, b3, b4, b5, b6, b7]) ::
        bits_to_data_bytes rest
  | short => [reverse_byte (pack8 (padTo 8 short))]

/-- The per-byte part of `_append_bits_from_data_bytes` in `core.py`:
reverse the byte, then emit its 8 bits MSB-first. -/
def bits_from_byte (b : Nat) : List Nat :=
  (List.range 8).map (fun i => (reverse_byte b / 2 ^ (7 - i)) % 2)

/-- `_append_bits_from_data_bytes` of `core.py`, as the pure list of bits
appended for a run of data bytes. -/
def unpack_bytes (data_bytes : List Nat) : List Nat :=
  data_bytes.flatMap bits_from_byte

/-! ### The (addr, type) → bit-queue dict

Python's insertion-ordered `dict` keyed by `(addr, type)` is modelled as an
association list; `setdefault` inserts at the end. -/

/-- The queue map: an insertion-ordered association list from (addr, type)
keys to bit lists. -/
abbrev Queues : Type := List ((Nat × Nat) × List Nat)

/-- Dict lookup. -/
def qlookup (qs : Queues) (k : Nat × Nat) : Option (List Nat) :=
  ((List.find? (fun e => e.1 = k) qs)).map (fun e => e.2)

/-- `setdefault(key, empty).extend(bs)` / `.append(b)`: append bits to the
queue at `k`, inserting the key at the end if absent. -/
def qappend : Queues → Nat × Nat → List Nat → Queues
  | [], k, bs => [(k, bs)]
  | (k', v) :: rest, k, bs =>
      if k' = k then (k', v ++ bs) :: rest else (k', v) :: qappend rest k bs

/-- Replace the value stored at an existing key (used for `popleft`). -/
def qset : Queues → Nat × Nat → List Nat → Queues
  | [], _, _ => []
  | (k', v) :: rest, k, bs =>
      if k' = k then (k', bs) :: rest else (k', v) :: qset rest k bs

/-- The insertion-ordered key list of the dict. -/
def qkeys (qs : Queues) : List (Nat × Nat) :=
  qs.map (fun e => e.1)

/-! ### Scan order -/

/-- The row indices a segment scans, in order: ascending for top segments
(`row_start == 0`), descending for bottom segments. -/
def scanRows (seg : Segment) : List Nat :=
  if seg.row_start = 0 then List.range' seg.row_start (seg.row_end - seg.row_start)
  else (List.range' seg.row_start (seg.row_end - seg.row_start)).reverse

/-- The column indices a segment scans, in order; like the source, the
direction is chosen by `row_start == 0`. -/
def scanCols (seg : Segment) : List Nat :=
  if seg.row_start = 0 then List.range' seg.col_start (seg.col_end - seg.col_start)
  else (List.range' seg.col_start (seg.col_end - seg.col_start)).reverse

/-- The global (row, col) cells of a segment in scan order (outer loop rows,
inner loop columns, as in `build_bit_queues_from_matrix` and
`fill_matrix_from_segments`). -/
def scanCells (seg : Segment) : List (Nat × Nat) :=
  (scanRows seg).flatMap (fun r => (scanCols seg).map (fun c => (r, c)))

/-- The pixel type of a global cell relative to its segment. -/
def typeOf (hole : Bool) (seg : Segment) (rc : Nat × Nat) : Option Nat :=
  logical_type_for_segment_pixel hole (rc.1 - seg.row_start) (rc.2 - seg.col_start)

/-- The (addr, type) dict key a segment uses for a type byte
(`addr_90` for 0x90, `addr_10` otherwise, as in the source). -/
def queueKey (seg : Segment) (t : Nat) : Nat × Nat :=
  (if t = TYPE_90 then seg.addr_90 else seg.addr_10, t)

/-- The dict key of a cell, `none` for the hole. -/
def keyOf (hole : Bool) (seg : Segment) (rc : Nat × Nat) : Option (Nat × Nat) :=
  (typeOf hole seg rc).map (queueKey seg)

/-- The cells of a given type inside a segment, in scan order. -/
def typedCells (hole : Bool) (seg : Segment) (t : Nat) : List (Nat × Nat) :=
  (scanCells seg).filter (fun rc => typeOf hole seg rc = some t)

/-! ### Encoding: matrix → queues -/

/-- A logical matrix, as a function from (row, col) to the stored bit. -/
abbrev Mat : Type := Nat → Nat → Nat

/-- One step of `build_bit_queues_from_matrix`: append the cell's bit to its
queue, skipping the hole. -/
def encStep (hole : Bool) (m : Mat) (seg : Segment) (qs : Queues)
    (rc : Nat × Nat) : Queues :=
  match typeOf hole seg rc with
  | none => qs
  | some t => qappend qs (queueKey seg t) [m rc.1 rc.2]

/-- The per-segment scan of `build_bit_queues_from_matrix`. -/
def encodeSegment (hole : Bool) (m : Mat) (seg : Segment) (qs : Queues) :
    Queues :=
  (scanCells seg).foldl (encStep hole m seg) qs

/-- `build_bit_queues_from_matrix` of `core.py`. -/
def build_bit_queues_from_matrix (hole : Bool) (m : Mat) : Queues :=
  SEGMENTS.foldl (fun qs seg => encodeSegment hole m seg qs) []

/-! ### Encoding: queues → payloads -/

/-- Fuel-indexed helper for `chunk40` (structural recursion on the fuel so
that the kernel can evaluate it; the fuel is always at least the list
length). -/
def chunk40Go : Nat → List Nat → List (List Nat)
  | _, [] => []
  | 0, _ => []
  | fuel + 1, bits => padTo 40 (bits.take 40) :: chunk40Go fuel (bits.drop 40)

/-- Split a bit list into consecutive 40-bit chunks, zero-padding the last
chunk (the `while idx < len(bits)` loop of `build_column_payloads`). -/
def chunk40 (bits : List Nat) : List (List Nat) :=
  chunk40Go bits.length bits

/-- The groups (`[ptype] + data_bytes`) built for one queue. -/
def groupsFor (t : Nat) (bits : List Nat) : List (List Nat) :=
  (chunk40 bits).map (fun c => t :: bits_to_data_bytes c)

/-- Fuel-indexed helper for `chunksOf` (structural recursion on the fuel so
that the kernel can evaluate it). -/
def chunksOfGo : Nat → Nat → List α → List (List α)
  | _, _, [] => []
  | 0, _, _ => []
  | fuel + 1, n, x :: xs => (x :: xs.take (n - 1)) :: chunksOfGo fuel n (xs.drop (n - 1))

/-- Split a list into consecutive runs of at most `n` elements (the
`groups[gi : gi + groups_per_payload]` packing loop). -/
def chunksOf (n : Nat) (l : List α) : List (List α) :=
  chunksOfGo l.length n l

/-- All payloads emitted for one (addr, type) queue. -/
def payloadsForKey (gpp : Nat) (addr t : Nat) (bits : List Nat) :
    List (List Nat) :=
  (chunksOf gpp (groupsFor t bits)).map (fun gs => addr :: gs.flatten)

/-- Insert into a descending-sorted list (model of Python's
`sorted(..., reverse=True)` on the deduplicated address set). -/
def insertDesc (a : Nat) : List Nat → List Nat
  | [] => [a]
  | b :: bs => if b ≤ a then a :: b :: bs else b :: insertDesc a bs

/-- Sort a list in non-increasing order. -/
def sortDesc (l : List Nat) : List Nat :=
  l.foldr insertDesc []

/-- The `used_addrs` of `build_column_payloads`:
`sorted({addr for (addr, _) in queues.keys()}, reverse=True)`. -/
def used_addrs (qs : Queues) : List Nat :=
  sortDesc ((qkeys qs).map (fun k => k.1)).dedup

/-- The payloads one address contributes, 0x90's queue first then 0x10's
(the inner loops of `build_column_payloads`). -/
def addrBlock (qs : Queues) (gpp : Nat) (addr : Nat) : List (List Nat) :=
  [TYPE_90, TYPE_10].flatMap (fun t =>
    match qlookup qs (addr, t) with
    | none => []
    | some bits => payloadsForKey gpp addr t bits)

/-- `build_column_payloads` of `core.py` with explicit `groups_per_payload`
(default 4 in the source). -/
def build_column_payloads (qs : Queues) (gpp : Nat) : List (List Nat) :=
  (used_addrs qs).flatMap (addrBlock qs gpp)

/-! ### Decoding: payloads/frames → queues -/

/-- The group-parsing loop shared by both decoders: repeatedly read a
6-byte `[type_byte, d0..d4]` group; stop on an unknown type byte or when
fewer than 6 bytes remain, keeping everything accepted so far. -/
def parse_body (addr : Nat) : Queues → List Nat → Queues
  | qs, t :: d0 :: d1 :: d2 :: d3 :: d4 :: rest =>
      if t = TYPE_90 ∨ t = TYPE_10 then
        parse_body addr (qappend qs (addr, t) (unpack_bytes [d0, d1, d2, d3, d4])) rest
      else qs
  | qs, _ => qs

/-- One payload line of `build_addr_type_bit_queues_from_payloads`: skipped
when shorter than 7 bytes, else `addr = p[0]`, body = `p[1:]`. -/
def payloadStep (qs : Queues) (p : List Nat) : Queues :=
  if p.length < 7 then qs
  else
    match p with
    | [] => qs
    | a :: body => parse_body a qs body

/-- `build_addr_type_bit_queues_from_payloads` of `core.py`. -/
def build_addr_type_bit_queues_from_payloads (payloads : List (List Nat)) :
    Queues :=
  payloads.foldl payloadStep []

/-- `frame[3:-2]` for a frame list. -/
def frame_body (f : List Nat) : List Nat :=
  (f.drop 3).take (f.length - 5)

/-- One frame of `build_addr_type_bit_queues_from_frames`:
`addr = frame[2]`, payload = `frame[3:-2]`. -/
def frameStep (qs : Queues) (f : List Nat) : Queues :=
  parse_body (f.getD 2 0) qs (frame_body f)

/-- `build_addr_type_bit_queues_from_frames` of `core.py`. -/
def build_addr_type_bit_queues_from_frames (frames : List (List Nat)) :
    Queues :=
  frames.foldl frameStep []

/-! ### Decoding: queues → matrix -/

/-- Point update of a matrix. -/
def setM (m : Mat) (r c b : Nat) : Mat :=
  fun r' c' => if r' = r ∧ c' = c then b else m r' c'

/-- One cell of `fill_matrix_from_segments`: the hole gets 0 and consumes
nothing; otherwise pop the front bit of the matching queue (0 if empty). -/
def fillStep (hole : Bool) (seg : Segment) (st : Queues × Mat)
    (rc : Nat × Nat) : Queues × Mat :=
  match typeOf hole seg rc with
  | none => (st.1, setM st.2 rc.1 rc.2 0)
  | some t =>
      match qlookup st.1 (queueKey seg t) with
      | some (b :: restBits) =>
          (qset st.1 (queueKey seg t) restBits, setM st.2 rc.1 rc.2 b)
      | _ => (st.1, setM st.2 rc.1 rc.2 0)

/-- The per-segment scan of `fill_matrix_from_segments`. -/
def fillSegment (hole : Bool) (seg : Segment) (st : Queues × Mat) :
    Queues × Mat :=
  (scanCells seg).foldl (fillStep hole seg) st

/-- `fill_matrix_from_segments` of `core.py` (the bit matrix it returns;
the parallel type matrix is not needed by the claims). -/
def fill_matrix_from_segments (hole : Bool) (qs : Queues) : Mat :=
  (SEGMENTS.foldl (fun st seg => fillSegment hole seg st) (qs, fun _ _ => 0)).2

/-! ### Calibrator backend (`segment_logic.py`) -/

/-- Modelled from the spec: `core.map_scan_to_type_coords` is called by
`segment_logic.py` but missing from `core.py` in the sources.  Per §4.7 of
the spec, the type and address of a pixel "follow directly from geometry",
i.e. from the segment-local coordinates `(row - row_start, col - col_start)`
fed to `type_at`; scenarios S2/S3 confirm this identity-offset mapping. -/
def map_scan_to_type_coords (seg : Segment) (grow gcol : Nat) : Nat × Nat :=
  (grow - seg.row_start, gcol - seg.col_start)

/-- Modelled from the spec: `core.segment_scan_ranges` is called by
`segment_logic.py` but missing from `core.py` in the sources.  Per §9 of the
spec, `calculate_bit_index` unpacks it as `(col_range, row_range)` and scans
with the column as the outer loop; the ranges themselves are the segment's
scan ranges in the directions of §4.1. -/
def segment_scan_ranges (seg : Segment) : List Nat × List Nat :=
  (scanCols seg, scanRows seg)

/-- The search loop of `SegmentLogic.calculate_bit_index`: walk cells,
return the counter on reaching the target, count cells whose type equals the
target's type. -/
def bitIndexSearch (hole : Bool) (seg : Segment) (tr tc : Nat) (tt : Nat) :
    List (Nat × Nat) → Nat → Int
  | [], _ => -1
  | rc :: rest, cnt =>
      if rc.1 - seg.row_start = tr ∧ rc.2 - seg.col_start = tc then
        Int.ofNat cnt
      else if typeOf hole seg rc = some tt then
        bitIndexSearch hole seg tr tc tt rest (cnt + 1)
      else
        bitIndexSearch hole seg tr tc tt rest cnt

/-- `SegmentLogic.calculate_bit_index`: −1 for the hole or when not found,
else the 0-based counter.  The cell list iterates the column as the outer
loop and the row as the inner loop, as in the source. -/
def calculate_bit_index (hole : Bool) (seg : Segment) (tr tc : Nat) : Int :=
  match logical_type_for_segment_pixel hole
      (map_scan_to_type_coords seg (seg.row_start + tr) (seg.col_start + tc)).1
      (map_scan_to_type_coords seg (seg.row_start + tr) (seg.col_start + tc)).2 with
  | none => -1
  | some tt =>
      bitIndexSearch hole seg tr tc tt
        ((segment_scan_ranges seg).1.flatMap (fun c =>
          (segment_scan_ranges seg).2.map (fun r => (r, c)))) 0

/-- The result record of `SegmentLogic.get_pixel_info`. -/
structure PixelInfo where
  ptype : Option Nat
  address : Option Nat
  bit_index : Int
deriving DecidableEq, Repr

/-- `SegmentLogic.get_pixel_info` (`none` when the segment name is unknown;
the hole yields `{type: "hole", address: None, bit_index: -1}`). -/
def get_pixel_info (hole : Bool) (segName : String) (sr sc : Nat) :
    Option PixelInfo :=
  match SEGMENTS.find? (fun s => s.name == segName) with
  | none => none
  | some seg =>
      let lc := map_scan_to_type_coords seg (seg.row_start + sr) (seg.col_start + sc)
      match logical_type_for_segment_pixel hole lc.1 lc.2 with
      | none => some ⟨none, none, -1⟩
      | some t =>
          some ⟨some t,
            some (if t = TYPE_90 then seg.addr_90 else seg.addr_10),
            calculate_bit_index hole seg sr sc⟩

/-- The activity test of `SegmentLogic.generate_single_pixel_command`: walk
6-byte blocks of the payload body and report whether any of the five data
bytes of a block is non-zero. -/
def anyNonzeroChunks : List Nat → Bool
  | [] => false
  | _ :: d0 :: d1 :: d2 :: d3 :: d4 :: rest =>
      (([d0, d1, d2, d3, d4]).any (fun b => b ≠ 0)) || anyNonzeroChunks rest
  | _ :: rest => rest.any (fun b => b ≠ 0)

/-- `SegmentLogic.generate_single_pixel_command` (raw-payload format):
set one pixel in a zero matrix, encode, and return the first payload with a
non-zero data byte; fall back to the first payload of the pixel's address
(empty for a hole or bad coordinates). -/
def generate_single_pixel_command (hole : Bool) (segName : String)
    (sr sc : Nat) : List Nat :=
  match SEGMENTS.find? (fun s => s.name == segName) with
  | none => []
  | some seg =>
      let grow := seg.row_start + sr
      let gcol := seg.col_start + sc
      if grow < MATRIX_ROWS ∧ gcol < MATRIX_COLS then
        let m : Mat := fun r c => if r = grow ∧ c = gcol then 1 else 0
        let payloads := build_column_payloads (build_bit_queues_from_matrix hole m) 4
        match payloads.find? (fun p => anyNonzeroChunks (p.drop 1)) with
        | some p => p
        | none =>
            let lc := map_scan_to_type_coords seg grow gcol
            match logical_type_for_segment_pixel hole lc.1 lc.2 with
            | none => []
            | some t =>
                match payloads.find? (fun p =>
                    p.headD 0 = (if t = TYPE_90 then seg.addr_90 else seg.addr_10)) with
                | some p => p
                | none => []
      else []

/-- `SegmentLogic.generate_command_from_bit_index` (raw-payload format):
build a single-bit queue of length `max(160, ceil_to_40(bit_index + 1))`,
encode it, and return the first payload whose address byte matches. -/
def generate_command_from_bit_index (addr type_code bit_index : Nat) :
    List Nat :=
  let length0 := max 160 (bit_index + 1)
  let length := if length0 % 40 ≠ 0 then length0 + (40 - length0 % 40) else length0
  let queue := (List.replicate length 0).set bit_index 1
  let payloads := build_column_payloads [((addr, type_code), queue)] 4
  match payloads.find? (fun p => p.headD 0 = addr) with
  | some p => p
  | none => []

/-! ### Calibration record codec (`command_codec.py`) -/

/-- `CHUNK_SIZE` of `command_codec.py`. -/
def CHUNK_SIZE : Nat := 5

/-- The extraction loop of `extract_data_bytes`, over the payload with the
address byte already skipped: drop each type byte and copy the following
5-byte chunk. -/
def extractLoop : List Nat → List Nat
  | [] => []
  | _ :: d0 :: d1 :: d2 :: d3 :: d4 :: rest =>
      d0 :: d1 :: d2 :: d3 :: d4 :: extractLoop rest
  | _ :: rest => rest

/-- `extract_data_bytes` of `command_codec.py`. -/
def extract_data_bytes (payload : List Nat) : List Nat :=
  match payload with
  | [] => []
  | _ :: body => extractLoop body

/-- The chunking loop of `build_full_payload`: emit the type byte and a
5-byte (zero-padded) chunk per `CHUNK_SIZE` slice of the data. -/
def buildLoop (type_code : Nat) : List Nat → List Nat
  | [] => []
  | d0 :: d1 :: d2 :: d3 :: d4 :: rest =>
      type_code :: d0 :: d1 :: d2 :: d3 :: d4 :: buildLoop type_code rest
  | short => type_code :: padTo CHUNK_SIZE short

/-- `build_full_payload` of `command_codec.py` (the non-`None` path: the
source returns `[]` only when address or type is `None`, which `Nat`
arguments cannot express). -/
def build_full_payload (address type_code : Nat) (data_bytes : List Nat) :
    List Nat :=
  if data_bytes = [] then
    address :: type_code :: List.replicate CHUNK_SIZE 0
  else
    address :: buildLoop type_code data_bytes

/-! ## Lemmas about the queue dict -/

theorem qlookup_nil (k : Nat × Nat) : qlookup [] k = none := rfl

theorem qlookup_cons (k' : Nat × Nat) (v : List Nat) (rest : Queues)
    (k : Nat × Nat) :
    qlookup ((k', v) :: rest) k = if k' = k then some v else qlookup rest k := by
  by_cases h : k' = k <;> simp [qlookup, List.find?, h]

theorem qlookup_qappend_self (qs : Queues) (k : Nat × Nat) (bs : List Nat) :
    qlookup (qappend qs k bs) k = some ((qlookup qs k).getD [] ++ bs) := by
  induction qs with
  | nil => simp [qappend, qlookup_cons, qlookup_nil]
  | cons e rest ih =>
      obtain ⟨k', v⟩ := e
      by_cases h : k' = k
      · subst h
        simp [qappend, qlookup_cons]
      · simp [qappend, h, qlookup_cons, ih]

theorem qlookup_qappend_other (qs : Queues) (k k' : Nat × Nat)
    (bs : List Nat) (h : k' ≠ k) :
    qlookup (qappend qs k bs) k' = qlookup qs k' := by
  induction qs with
  | nil => simp [qappend, qlookup_cons, qlookup_nil, fun a => h.symm a]
  | cons e rest ih =>
      obtain ⟨k0, v⟩ := e
      by_cases h0 : k0 = k
      · subst h0
        simp [qappend, qlookup_cons, fun a => h.symm a]
      · simp [qappend, h0, qlookup_cons, ih]

theorem qappend_qappend (qs : Queues) (k : Nat × Nat) (x y : List Nat) :
    qappend (qappend qs k x) k y = qappend qs k (x ++ y) := by
  induction qs with
  | nil => simp [qappend]
  | cons e rest ih =>
      obtain ⟨k0, v⟩ := e
      by_cases h0 : k0 = k
      · subst h0
        simp [qappend]
      · simp [qappend, h0, ih]

theorem qlookup_qset_self (qs : Queues) (k : Nat × Nat) (v bs : List Nat)
    (h : qlookup qs k = some v) :
    qlookup (qset qs k bs) k = some bs := by
  induction qs with
  | nil => simp [qlookup_nil] at h
  | cons e rest ih =>
      obtain ⟨k0, v0⟩ := e
      by_cases h0 : k0 = k
      · subst h0
        simp [qset, qlookup_cons]
      · rw [qlookup_cons, if_neg h0] at h
        simp [qset, h0, qlookup_cons, ih h]

theorem qlookup_qset_other (qs : Queues) (k k' : Nat × Nat) (bs : List Nat)
    (h : k' ≠ k) :
    qlookup (qset qs k bs) k' = qlookup qs k' := by
  induction qs with
  | nil => simp [qset]
  | cons e rest ih =>
      obtain ⟨k0, v0⟩ := e
      by_cases h0 : k0 = k
      · subst h0
        simp [qset, qlookup_cons, fun a => h.symm a]
      · simp [qset, h0, qlookup_cons, ih]

theorem qkeys_qappend (qs : Queues) (k : Nat × Nat) (bs : List Nat) :
    qkeys (qappend qs k bs) =
      if k ∈ qkeys qs then qkeys qs else qkeys qs ++ [k] := by
  induction qs with
  | nil => simp [qappend, qkeys]
  | cons e rest ih =>
      obtain ⟨k0, v⟩ := e
      by_cases h0 : k0 = k
      · subst h0
        simp [qappend, qkeys]
      · have hl : qkeys (qappend ((k0, v) :: rest) k bs) =
            k0 :: qkeys (qappend rest k bs) := by
          simp [qappend, h0, qkeys]
        have hc : qkeys ((k0, v) :: rest) = k0 :: qkeys rest := rfl
        rw [hl, hc, ih]
        by_cases hm : k ∈ qkeys rest
        · rw [if_pos hm, if_pos (List.mem_cons_of_mem _ hm)]
        · rw [if_neg hm, if_neg (by
            simp only [List.mem_cons, not_or]
            exact ⟨fun a => h0 a.symm, hm⟩)]
          simp

/-! ## Byte-level round-trip lemmas -/

/-- The number of set bits among the low eight bits of a byte. -/
def bitsum8 (b : Nat) : Nat :=
  ((List.range 8).map (fun i => b / 2 ^ i % 2)).sum

theorem reverse_byte_lt (b : Nat) : reverse_byte b < 256 :=
  Nat.mod_lt _ (by norm_num)

theorem lt_two_cases (b : Nat) (h : b < 2) : b = 0 ∨ b = 1 := by omega

theorem bits_from_byte_pack8 (c : List Nat) (hlen : c.length = 8)
    (hb : ∀ b ∈ c, b < 2) :
    bits_from_byte (reverse_byte (pack8 c)) = c := by
  rcases c with _ | ⟨b0, _ | ⟨b1, _ | ⟨b2, _ | ⟨b3, _ | ⟨b4, _ | ⟨b5, _ |
    ⟨b6, _ | ⟨b7, _ | ⟨b8, c⟩⟩⟩⟩⟩⟩⟩⟩⟩ <;> simp_all
  rcases lt_two_cases b0 hb.1 with rfl | rfl <;>
    rcases lt_two_cases b1 hb.2.1 with rfl | rfl <;>
    rcases lt_two_cases b2 hb.2.2.1 with rfl | rfl <;>
    rcases lt_two_cases b3 hb.2.2.2.1 with rfl | rfl <;>
    rcases lt_two_cases b4 hb.2.2.2.2.1 with rfl | rfl <;>
    rcases lt_two_cases b5 hb.2.2.2.2.2.1 with rfl | rfl <;>
    rcases lt_two_cases b6 hb.2.2.2.2.2.2.1 with rfl | rfl <;>
    rcases lt_two_cases b7 hb.2.2.2.2.2.2.2 with rfl | rfl <;> rfl

theorem bitsum8_pack8 (c : List Nat) (hlen : c.length = 8)
    (hb : ∀ b ∈ c, b < 2) :
    bitsum8 (reverse_byte (pack8 c)) = c.sum := by
  rcases c with _ | ⟨b0, _ | ⟨b1, _ | ⟨b2, _ | ⟨b3, _ | ⟨b4, _ | ⟨b5, _ |
    ⟨b6, _ | ⟨b7, _ | ⟨b8, c⟩⟩⟩⟩⟩⟩⟩⟩⟩ <;> simp_all
  rcases lt_two_cases b0 hb.1 with rfl | rfl <;>
    rcases lt_two_cases b1 hb.2.1 with rfl | rfl <;>
    rcases lt_two_cases b2 hb.2.2.1 with rfl | rfl <;>
    rcases lt_two_cases b3 hb.2.2.2.1 with rfl | rfl <;>
    rcases lt_two_cases b4 hb.2.2.2.2.1 with rfl | rfl <;>
    rcases lt_two_cases b5 hb.2.2.2.2.2.1 with rfl | rfl <;>
    rcases lt_two_cases b6 hb.2.2.2.2.2.2.1 with rfl | rfl <;>
    rcases lt_two_cases b7 hb.2.2.2.2.2.2.2 with rfl | rfl <;> rfl

/-! ## Packing / unpacking round trip -/

theorem unpack_bytes_cons (b : Nat) (bs : List Nat) :
    unpack_bytes (b :: bs) = bits_from_byte b ++ unpack_bytes bs := by
  simp [unpack_bytes]

theorem bits_to_data_bytes_eight (c : List Nat) (rest : List Nat)
    (hlen : c.length = 8) :
    bits_to_data_bytes (c ++ rest) =
      reverse_byte (pack8 c) :: bits_to_data_bytes rest := by
  rcases c with _ | ⟨b0, _ | ⟨b1, _ | ⟨b2, _ | ⟨b3, _ | ⟨b4, _ | ⟨b5, _ |
    ⟨b6, _ | ⟨b7, _ | ⟨b8, c⟩⟩⟩⟩⟩⟩⟩⟩⟩ <;> simp_all [bits_to_data_bytes]

theorem unpack_pack_mul8 : ∀ (n : Nat) (bits : List Nat),
    bits.length = 8 * n → (∀ b ∈ bits, b < 2) →
    unpack_bytes (bits_to_data_bytes bits) = bits := by
  intro n
  induction n with
  | zero =>
      intro bits hlen _
      have : bits = [] := List.eq_nil_of_length_eq_zero (by omega)
      subst this
      rfl
  | succ n ih =>
      intro bits hlen hb
      have h8 : (bits.take 8).length = 8 := by
        simp [List.length_take]
        omega
      have hsplit : bits.take 8 ++ bits.drop 8 = bits := List.take_append_drop 8 bits
      calc unpack_bytes (bits_to_data_bytes bits)
          = unpack_bytes (bits_to_data_bytes (bits.take 8 ++ bits.drop 8)) := by
            rw [hsplit]
        _ = bits_from_byte (reverse_byte (pack8 (bits.take 8))) ++
              unpack_bytes (bits_to_data_bytes (bits.drop 8)) := by
            rw [bits_to_data_bytes_eight _ _ h8, unpack_bytes_cons]
        _ = bits.take 8 ++ bits.drop 8 := by
            rw [bits_from_byte_pack8 _ h8
              (fun b hbm => hb b (List.mem_of_mem_take hbm)),
              ih (bits.drop 8) (by simp [List.length_drop]; omega)
              (fun b hbm => hb b (List.mem_of_mem_drop hbm))]
        _ = bits := hsplit

theorem chunk40Go_congr : ∀ (f1 : Nat) (f2 : Nat) (bits : List Nat),
    bits.length ≤ f1 → bits.length ≤ f2 →
    chunk40Go f1 bits = chunk40Go f2 bits := by
  intro f1
  induction f1 with
  | zero =>
      intro f2 bits h1 _
      have : bits = [] := List.eq_nil_of_length_eq_zero (by omega)
      subst this
      cases f2 <;> rfl
  | succ f1 ih =>
      intro f2 bits h1 h2
      cases bits with
      | nil => cases f2 <;> rfl
      | cons b bs =>
          cases f2 with
          | zero => simp at h2
          | succ f2 =>
              show padTo 40 ((b :: bs).take 40) ::
                    chunk40Go f1 ((b :: bs).drop 40) =
                  padTo 40 ((b :: bs).take 40) ::
                    chunk40Go f2 ((b :: bs).drop 40)
              rw [ih f2 ((b :: bs).drop 40)
                (by simp [List.length_drop] at h1 ⊢; omega)
                (by simp [List.length_drop] at h2 ⊢; omega)]

theorem chunk40_eq (bits : List Nat) (h : bits ≠ []) :
    chunk40 bits = padTo 40 (bits.take 40) :: chunk40 (bits.drop 40) := by
  cases bits with
  | nil => exact absurd rfl h
  | cons b bs =>
      have h1 : chunk40Go (bs.length + 1) (b :: bs) =
          padTo 40 ((b :: bs).take 40) ::
            chunk40Go bs.length ((b :: bs).drop 40) := rfl
      show chunk40Go (bs.length + 1) (b :: bs) = _
      rw [h1, chunk40Go_congr bs.length ((b :: bs).drop 40).length ((b :: bs).drop 40)
        (by simp only [List.length_drop, List.length_cons]; omega) (le_refl _)]
      rfl

theorem chunksOfGo_congr {α : Type} : ∀ (f1 : Nat) (f2 : Nat) (n : Nat)
    (l : List α), l.length ≤ f1 → l.length ≤ f2 →
    chunksOfGo f1 n l = chunksOfGo f2 n l := by
  intro f1
  induction f1 with
  | zero =>
      intro f2 n l h1 _
      have : l = [] := List.eq_nil_of_length_eq_zero (by omega)
      subst this
      cases f2 <;> rfl
  | succ f1 ih =>
      intro f2 n l h1 h2
      cases l with
      | nil => cases f2 <;> rfl
      | cons x xs =>
          cases f2 with
          | zero => simp at h2
          | succ f2 =>
              show (x :: xs.take (n - 1)) :: chunksOfGo f1 n (xs.drop (n - 1)) =
                  (x :: xs.take (n - 1)) :: chunksOfGo f2 n (xs.drop (n - 1))
              rw [ih f2 n (xs.drop (n - 1))
                (by simp [List.length_drop] at h1 ⊢; omega)
                (by simp [List.length_drop] at h2 ⊢; omega)]

theorem chunksOf_eq {α : Type} (n : Nat) (x : α) (xs : List α) :
    chunksOf n (x :: xs) = (x :: xs.take (n - 1)) :: chunksOf n (xs.drop (n - 1)) := by
  have h1 : chunksOfGo (xs.length + 1) n (x :: xs) =
      (x :: xs.take (n - 1)) :: chunksOfGo xs.length n (xs.drop (n - 1)) := rfl
  show chunksOfGo (xs.length + 1) n (x :: xs) = _
  rw [h1, chunksOfGo_congr xs.length ((xs.drop (n - 1)).length) n (xs.drop (n - 1))
    (by simp only [List.length_drop]; omega) (le_refl _)]
  rfl

/-! ## Scan-order membership -/

theorem mem_scanRows (seg : Segment) (r : Nat) :
    r ∈ scanRows seg ↔ seg.row_start ≤ r ∧ r < seg.row_start + (seg.row_end - seg.row_start) := by
  unfold scanRows
  split <;> simp [List.mem_range'_1]

theorem mem_scanCols (seg : Segment) (c : Nat) :
    c ∈ scanCols seg ↔ seg.col_start ≤ c ∧ c < seg.col_start + (seg.col_end - seg.col_start) := by
  unfold scanCols
  split <;> simp [List.mem_range'_1]

theorem mem_scanCells (seg : Segment) (rc : Nat × Nat) :
    rc ∈ scanCells seg ↔
      (seg.row_start ≤ rc.1 ∧ rc.1 < seg.row_start + (seg.row_end - seg.row_start)) ∧
      (seg.col_start ≤ rc.2 ∧ rc.2 < seg.col_start + (seg.col_end - seg.col_start)) := by
  obtain ⟨r, c⟩ := rc
  simp only [scanCells, List.mem_flatMap, List.mem_map]
  constructor
  · rintro ⟨r', hr', c', hc', h⟩
    have h1 : r' = r := congrArg Prod.fst h
    have h2 : c' = c := congrArg Prod.snd h
    exact ⟨h1 ▸ (mem_scanRows seg r').mp hr', h2 ▸ (mem_scanCols seg c').mp hc'⟩
  · rintro ⟨hr, hc⟩
    exact ⟨r, (mem_scanRows seg r).mpr hr, c, (mem_scanCols seg c).mpr hc, rfl⟩

/-! ## Claim C5: the pixel-type layout -/

/-- C5: for all segment-local coordinates with `seg_row ≤ 12` and
`seg_col ≤ 23`, `logical_type_for_segment_pixel` yields the hole exactly
when the hole feature is enabled and the coordinate is (12, 23); otherwise
rows 0..11 alternate 0x90/0x10 by row parity and row 12 alternates by
column parity. -/
theorem claim_C5 (hole : Bool) (sr sc : Nat) (hr : sr ≤ 12) (hc : sc ≤ 23) :
    (logical_type_for_segment_pixel hole sr sc = none ↔
      hole = true ∧ sr = 12 ∧ sc = 23) ∧
    (sr < 12 → logical_type_for_segment_pixel hole sr sc =
      some (if sr % 2 = 0 then TYPE_90 else TYPE_10)) ∧
    (sr = 12 → ¬(hole = true ∧ sc = 23) →
      logical_type_for_segment_pixel hole sr sc =
      some (if sc % 2 = 0 then TYPE_90 else TYPE_10)) := by
  refine ⟨?_, ?_, ?_⟩
  · have h : ∀ (b : Bool), ∀ r < 13, ∀ c < 24,
        (logical_type_for_segment_pixel b r c = none ↔
          b = true ∧ r = 12 ∧ c = 23) := by decide
    exact h hole sr (by omega) sc (by omega)
  · have h : ∀ (b : Bool), ∀ r < 13, ∀ c < 24,
        (r < 12 → logical_type_for_segment_pixel b r c =
          some (if r % 2 = 0 then TYPE_90 else TYPE_10)) := by decide
    exact h hole sr (by omega) sc (by omega)
  · have h : ∀ (b : Bool), ∀ r < 13, ∀ c < 24,
        (r = 12 ∧ ¬(b = true ∧ c = 23) →
          logical_type_for_segment_pixel b r c =
          some (if c % 2 = 0 then TYPE_90 else TYPE_10)) := by decide
    exact fun h12 hn => h hole sr (by omega) sc (by omega) ⟨h12, hn⟩

/-- Witness for C5 at the hole coordinate with the hole feature enabled. -/
theorem claim_C5_witness : logical_type_for_segment_pixel true 12 23 = none :=
  ((claim_C5 true 12 23 (by decide) (by decide)).1).mpr ⟨rfl, rfl, rfl⟩

/-! ## Claim C10: the calibration-record codec round trip -/

theorem extractLoop_buildLoop (t : Nat) : ∀ (n : Nat) (data : List Nat),
    data.length = 5 * n → extractLoop (buildLoop t data) = data := by
  intro n
  induction n with
  | zero =>
      intro data hlen
      have : data = [] := List.eq_nil_of_length_eq_zero (by omega)
      subst this
      rfl
  | succ n ih =>
      intro data hlen
      rcases data with _ | ⟨d0, _ | ⟨d1, _ | ⟨d2, _ | ⟨d3, _ | ⟨d4, rest⟩⟩⟩⟩⟩ <;>
        simp only [List.length_nil, List.length_cons] at hlen <;> try omega
      show extractLoop (t :: d0 :: d1 :: d2 :: d3 :: d4 :: buildLoop t rest) = _
      show d0 :: d1 :: d2 :: d3 :: d4 :: extractLoop (buildLoop t rest) = _
      rw [ih rest (by omega)]

/-- C10: for every address, type code and non-empty data list whose length
is a multiple of five, `extract_data_bytes` recovers the data from
`build_full_payload`. -/
theorem claim_C10 (address type_code : Nat) (data : List Nat)
    (hne : data ≠ []) (hlen : data.length % 5 = 0) :
    extract_data_bytes (build_full_payload address type_code data) = data := by
  unfold build_full_payload
  rw [if_neg hne]
  show extractLoop (buildLoop type_code data) = data
  exact extractLoop_buildLoop type_code (data.length / 5) data (by omega)

/-- Witness for C10 at a concrete two-chunk record. -/
theorem claim_C10_witness :
    extract_data_bytes (build_full_payload 7 0x90 [1, 2, 3, 4, 5, 6, 7, 8, 9, 10]) =
      [1, 2, 3, 4, 5, 6, 7, 8, 9, 10] :=
  claim_C10 7 0x90 [1, 2, 3, 4, 5, 6, 7, 8, 9, 10] (by decide) (by decide)

/-! ## Characterization of the encoder -/

/-- The bits a run of cells contributes to the queue at key `k`. -/
def bitsFor (hole : Bool) (m : Mat) (seg : Segment) (k : Nat × Nat)
    (cells : List (Nat × Nat)) : List Nat :=
  (cells.filter (fun rc => keyOf hole seg rc = some k)).map
    (fun rc => m rc.1 rc.2)

/-- The bits a whole segment contributes to the queue of its type `t`. -/
def segmentBits (hole : Bool) (m : Mat) (seg : Segment) (t : Nat) : List Nat :=
  (typedCells hole seg t).map (fun rc => m rc.1 rc.2)

/-- Append to an optional queue value, leaving an absent key absent when
there is nothing to append. -/
def oappend (o : Option (List Nat)) (bs : List Nat) : Option (List Nat) :=
  if bs = [] then o else some (o.getD [] ++ bs)

theorem oappend_nil (o : Option (List Nat)) : oappend o [] = o := by
  simp [oappend]

theorem keyOf_cases (hole : Bool) (seg : Segment) (rc : Nat × Nat) :
    keyOf hole seg rc = none ∨
    keyOf hole seg rc = some (queueKey seg TYPE_90) ∨
    keyOf hole seg rc = some (queueKey seg TYPE_10) := by
  unfold keyOf typeOf logical_type_for_segment_pixel
  split_ifs <;> simp

theorem keyOf_eq_iff (hole : Bool) (seg : Segment) (rc : Nat × Nat) (t : Nat)
    (ht : t = TYPE_90 ∨ t = TYPE_10) :
    keyOf hole seg rc = some (queueKey seg t) ↔ typeOf hole seg rc = some t := by
  unfold keyOf
  cases h : typeOf hole seg rc with
  | none => simp
  | some a =>
      simp only [Option.map_some', Option.some.injEq]
      constructor
      · intro he
        have h2 : (queueKey seg a).2 = (queueKey seg t).2 := congrArg Prod.snd he
        simp only [queueKey] at h2
        exact h2
      · intro he
        subst he
        rfl

theorem qlookup_encodeSegment (hole : Bool) (m : Mat) (seg : Segment) :
    ∀ (cells : List (Nat × Nat)) (qs : Queues) (k : Nat × Nat),
    qlookup (cells.foldl (encStep hole m seg) qs) k =
      oappend (qlookup qs k) (bitsFor hole m seg k cells) := by
  intro cells
  induction cells with
  | nil => intro qs k; simp [bitsFor, oappend_nil]
  | cons c cells ih =>
      intro qs k
      show qlookup (cells.foldl (encStep hole m seg) (encStep hole m seg qs c)) k = _
      cases hk : typeOf hole seg c with
      | none =>
          have hstep : encStep hole m seg qs c = qs := by
            simp [encStep, hk]
          have hfil : bitsFor hole m seg k (c :: cells) =
              bitsFor hole m seg k cells := by
            simp only [bitsFor, List.filter_cons]
            rw [if_neg (by simp [keyOf, hk])]
          rw [hstep, hfil, ih]
      | some t =>
          have hkey : keyOf hole seg c = some (queueKey seg t) := by
            simp [keyOf, hk]
          have hstep : encStep hole m seg qs c =
              qappend qs (queueKey seg t) [m c.1 c.2] := by
            simp [encStep, hk]
          by_cases heq : queueKey seg t = k
          · subst heq
            have hfil : bitsFor hole m seg (queueKey seg t) (c :: cells) =
                m c.1 c.2 :: bitsFor hole m seg (queueKey seg t) cells := by
              simp only [bitsFor, List.filter_cons]
              rw [if_pos (by simp [hkey])]
              rfl
            rw [hstep, hfil, ih]
            rw [qlookup_qappend_self]
            cases hbs : bitsFor hole m seg (queueKey seg t) cells with
            | nil => simp [oappend]
            | cons b bs => simp [oappend]
          · have hfil : bitsFor hole m seg k (c :: cells) =
                bitsFor hole m seg k cells := by
              simp only [bitsFor, List.filter_cons]
              rw [if_neg (by simp [hkey]; exact heq)]
            rw [hstep, hfil, ih, qlookup_qappend_other _ _ _ _ (fun a => heq a.symm)]

theorem bitsFor_eq_nil (hole : Bool) (m : Mat) (seg : Segment)
    (k : Nat × Nat) (cells : List (Nat × Nat))
    (h90 : queueKey seg TYPE_90 ≠ k) (h10 : queueKey seg TYPE_10 ≠ k) :
    bitsFor hole m seg k cells = [] := by
  unfold bitsFor
  rw [List.filter_eq_nil_iff.mpr]
  · rfl
  · intro rc _
    rcases keyOf_cases hole seg rc with h | h | h <;> simp [h]
    · exact h90
    · exact h10

theorem bitsFor_scanCells (hole : Bool) (m : Mat) (seg : Segment) (t : Nat)
    (ht : t = TYPE_90 ∨ t = TYPE_10) :
    bitsFor hole m seg (queueKey seg t) (scanCells seg) =
      segmentBits hole m seg t := by
  unfold bitsFor segmentBits typedCells
  congr 1
  apply List.filter_congr
  intro rc _
  exact decide_eq_decide.mpr (keyOf_eq_iff hole seg rc t ht)

theorem qlookup_segsFold (hole : Bool) (m : Mat) :
    ∀ (segs : List Segment) (qs : Queues) (k : Nat × Nat),
    qlookup (segs.foldl (fun qs seg => encodeSegment hole m seg qs) qs) k =
      segs.foldl (fun o seg => oappend o (bitsFor hole m seg k (scanCells seg)))
        (qlookup qs k) := by
  intro segs
  induction segs with
  | nil => intro qs k; rfl
  | cons s segs ih =>
      intro qs k
      show qlookup (segs.foldl _ (encodeSegment hole m s qs)) k = _
      rw [ih, List.foldl_cons]
      congr 1
      exact qlookup_encodeSegment hole m s (scanCells s) qs k

theorem mem_SEGMENTS_cases (seg : Segment) (hseg : seg ∈ SEGMENTS) :
    seg = segTL ∨ seg = segTR ∨ seg = segBL ∨ seg = segBR := by
  simpa [SEGMENTS] using hseg

theorem typedCells_ne_nil (hole : Bool) (seg : Segment) (hseg : seg ∈ SEGMENTS)
    (t : Nat) (ht : t = TYPE_90 ∨ t = TYPE_10) :
    typedCells hole seg t ≠ [] := by
  cases hole <;> rcases ht with rfl | rfl <;>
    rcases mem_SEGMENTS_cases seg hseg with rfl | rfl | rfl | rfl <;> decide

theorem segmentBits_ne_nil (hole : Bool) (m : Mat) (seg : Segment)
    (hseg : seg ∈ SEGMENTS) (t : Nat) (ht : t = TYPE_90 ∨ t = TYPE_10) :
    segmentBits hole m seg t ≠ [] := by
  unfold segmentBits
  simpa using typedCells_ne_nil hole seg hseg t ht

theorem oappend_none_of_ne_nil (bs : List Nat) (h : bs ≠ []) :
    oappend none bs = some bs := by
  simp [oappend, h]

/-- Looking up a segment's own key in the full encoder output yields exactly
the bits of that segment's type-`t` cells in scan order. -/
theorem encode_lookup (hole : Bool) (m : Mat) (seg : Segment)
    (hseg : seg ∈ SEGMENTS) (t : Nat) (ht : t = TYPE_90 ∨ t = TYPE_10) :
    qlookup (build_bit_queues_from_matrix hole m) (queueKey seg t) =
      some (segmentBits hole m seg t) := by
  have hb : ∀ k, qlookup (build_bit_queues_from_matrix hole m) k =
      oappend (oappend (oappend (oappend (qlookup [] k)
        (bitsFor hole m segTL k (scanCells segTL)))
        (bitsFor hole m segTR k (scanCells segTR)))
        (bitsFor hole m segBL k (scanCells segBL)))
        (bitsFor hole m segBR k (scanCells segBR)) := by
    intro k
    rw [show build_bit_queues_from_matrix hole m =
        SEGMENTS.foldl (fun qs seg => encodeSegment hole m seg qs) [] from rfl,
      qlookup_segsFold]
    rfl
  rcases mem_SEGMENTS_cases seg hseg with rfl | rfl | rfl | rfl <;>
    rw [hb (queueKey _ t)] <;>
    rcases ht with rfl | rfl
  · rw [bitsFor_scanCells hole m segTL TYPE_90 (Or.inl rfl),
      bitsFor_eq_nil hole m segTR _ _ (by decide) (by decide),
      bitsFor_eq_nil hole m segBL _ _ (by decide) (by decide),
      bitsFor_eq_nil hole m segBR _ _ (by decide) (by decide),
      oappend_nil, oappend_nil, oappend_nil]
    exact oappend_none_of_ne_nil _ (segmentBits_ne_nil hole m segTL (by simp [SEGMENTS]) TYPE_90 (Or.inl rfl))
  · rw [bitsFor_scanCells hole m segTL TYPE_10 (Or.inr rfl),
      bitsFor_eq_nil hole m segTR _ _ (by decide) (by decide),
      bitsFor_eq_nil hole m segBL _ _ (by decide) (by decide),
      bitsFor_eq_nil hole m segBR _ _ (by decide) (by decide),
      oappend_nil, oappend_nil, oappend_nil]
    exact oappend_none_of_ne_nil _ (segmentBits_ne_nil hole m segTL (by simp [SEGMENTS]) TYPE_10 (Or.inr rfl))
  · rw [bitsFor_scanCells hole m segTR TYPE_90 (Or.inl rfl),
      bitsFor_eq_nil hole m segTL _ _ (by decide) (by decide),
      bitsFor_eq_nil hole m segBL _ _ (by decide) (by decide),
      bitsFor_eq_nil hole m segBR _ _ (by decide) (by decide),
      oappend_nil, oappend_nil]
    rw [show qlookup [] (queueKey segTR TYPE_90) = none from rfl]
    rw [oappend_nil]
    exact oappend_none_of_ne_nil _ (segmentBits_ne_nil hole m segTR (by simp [SEGMENTS]) TYPE_90 (Or.inl rfl))
  · rw [bitsFor_scanCells hole m segTR TYPE_10 (Or.inr rfl),
      bitsFor_eq_nil hole m segTL _ _ (by decide) (by decide),
      bitsFor_eq_nil hole m segBL _ _ (by decide) (by decide),
      bitsFor_eq_nil hole m segBR _ _ (by decide) (by decide),
      oappend_nil, oappend_nil]
    rw [show qlookup [] (queueKey segTR TYPE_10) = none from rfl]
    rw [oappend_nil]
    exact oappend_none_of_ne_nil _ (segmentBits_ne_nil hole m segTR (by simp [SEGMENTS]) TYPE_10 (Or.inr rfl))
  · rw [bitsFor_scanCells hole m segBL TYPE_90 (Or.inl rfl),
      bitsFor_eq_nil hole m segTL _ _ (by decide) (by decide),
      bitsFor_eq_nil hole m segTR _ _ (by decide) (by decide),
      bitsFor_eq_nil hole m segBR _ _ (by decide) (by decide),
      oappend_nil]
    rw [show qlookup [] (queueKey segBL TYPE_90) = none from rfl]
    rw [oappend_nil, oappend_nil]
    exact oappend_none_of_ne_nil _ (segmentBits_ne_nil hole m segBL (by simp [SEGMENTS]) TYPE_90 (Or.inl rfl))
  · rw [bitsFor_scanCells hole m segBL TYPE_10 (Or.inr rfl),
      bitsFor_eq_nil hole m segTL _ _ (by decide) (by decide),
      bitsFor_eq_nil hole m segTR _ _ (by decide) (by decide),
      bitsFor_eq_nil hole m segBR _ _ (by decide) (by decide),
      oappend_nil]
    rw [show qlookup [] (queueKey segBL TYPE_10) = none from rfl]
    rw [oappend_nil, oappend_nil]
    exact oappend_none_of_ne_nil _ (segmentBits_ne_nil hole m segBL (by simp [SEGMENTS]) TYPE_10 (Or.inr rfl))
  · rw [bitsFor_scanCells hole m segBR TYPE_90 (Or.inl rfl),
      bitsFor_eq_nil hole m segTL _ _ (by decide) (by decide),
      bitsFor_eq_nil hole m segTR _ _ (by decide) (by decide),
      bitsFor_eq_nil hole m segBL _ _ (by decide) (by decide)]
    rw [show qlookup [] (queueKey segBR TYPE_90) = none from rfl]
    rw [oappend_nil, oappend_nil, oappend_nil]
    exact oappend_none_of_ne_nil _ (segmentBits_ne_nil hole m segBR (by simp [SEGMENTS]) TYPE_90 (Or.inl rfl))
  · rw [bitsFor_scanCells hole m segBR TYPE_10 (Or.inr rfl),
      bitsFor_eq_nil hole m segTL _ _ (by decide) (by decide),
      bitsFor_eq_nil hole m segTR _ _ (by decide) (by decide),
      bitsFor_eq_nil hole m segBL _ _ (by decide) (by decide)]
    rw [show qlookup [] (queueKey segBR TYPE_10) = none from rfl]
    rw [oappend_nil, oappend_nil, oappend_nil]
    exact oappend_none_of_ne_nil _ (segmentBits_ne_nil hole m segBR (by simp [SEGMENTS]) TYPE_10 (Or.inr rfl))

/-! ## Characterization of the decoder's matrix fill -/

theorem typeOf_cases (hole : Bool) (seg : Segment) (rc : Nat × Nat) :
    typeOf hole seg rc = none ∨ typeOf hole seg rc = some TYPE_90 ∨
    typeOf hole seg rc = some TYPE_10 := by
  unfold typeOf logical_type_for_segment_pixel
  split_ifs <;> simp

theorem queueKey_snd_ne (seg : Segment) (t t' : Nat) (h : t ≠ t') :
    queueKey seg t ≠ queueKey seg t' := by
  intro he
  exact h (congrArg Prod.snd he)

theorem setM_ne (m : Mat) (r c b : Nat) (rc : Nat × Nat) (h : rc ≠ (r, c)) :
    setM m r c b rc.1 rc.2 = m rc.1 rc.2 := by
  unfold setM
  rw [if_neg]
  intro hc
  exact h (Prod.ext hc.1 hc.2)

theorem setM_self (m : Mat) (r c b : Nat) : setM m r c b r c = b := by
  simp [setM]

/-- The state after scanning a run of cells in `fill_matrix_from_segments`. -/
def fillFold (hole : Bool) (seg : Segment) (cells : List (Nat × Nat))
    (st : Queues × Mat) : Queues × Mat :=
  cells.foldl (fillStep hole seg) st

/-- The conclusion of the per-segment fill characterization: other keys are
untouched, cells outside the run keep their old value, hole cells are
written 0, and the `i`-th cell of type `t` receives the `i`-th bit of the
queue at that type's key (0 when the queue is missing or exhausted). -/
def FillConcl (hole : Bool) (seg : Segment) (cells : List (Nat × Nat))
    (qs : Queues) (acc : Mat) : Prop :=
  (∀ k, k ≠ queueKey seg TYPE_90 → k ≠ queueKey seg TYPE_10 →
    qlookup (fillFold hole seg cells (qs, acc)).1 k = qlookup qs k) ∧
  (∀ rc, rc ∉ cells →
    (fillFold hole seg cells (qs, acc)).2 rc.1 rc.2 = acc rc.1 rc.2) ∧
  (∀ rc ∈ cells, typeOf hole seg rc = none →
    (fillFold hole seg cells (qs, acc)).2 rc.1 rc.2 = 0) ∧
  (∀ t, (t = TYPE_90 ∨ t = TYPE_10) →
    ∀ i, i < (cells.filter (fun rc => typeOf hole seg rc = some t)).length →
    (fillFold hole seg cells (qs, acc)).2
        ((cells.filter (fun rc => typeOf hole seg rc = some t)).getD i (0, 0)).1
        ((cells.filter (fun rc => typeOf hole seg rc = some t)).getD i (0, 0)).2
      = ((qlookup qs (queueKey seg t)).getD []).getD i 0)

/-- The typed-cell step of the fill characterization. -/
theorem fillFold_char_typed (hole : Bool) (seg : Segment) (c : Nat × Nat)
    (cells : List (Nat × Nat)) (qs : Queues) (acc : Mat)
    (hc : c ∉ cells) (hnd' : cells.Nodup)
    (ih : ∀ (qs : Queues) (acc : Mat), cells.Nodup → FillConcl hole seg cells qs acc)
    (t0 : Nat) (ht0 : t0 = TYPE_90 ∨ t0 = TYPE_10)
    (ht : typeOf hole seg c = some t0) :
    FillConcl hole seg (c :: cells) qs acc := by
  have hfold : fillFold hole seg (c :: cells) (qs, acc) =
      fillFold hole seg cells (fillStep hole seg (qs, acc) c) := rfl
  -- the queue and matrix after the step, described uniformly
  obtain ⟨qs', b, hstep, hq_other, hq_own⟩ :
      ∃ (qs' : Queues) (b : Nat),
        fillStep hole seg (qs, acc) c = (qs', setM acc c.1 c.2 b) ∧
        (∀ k, k ≠ queueKey seg t0 → qlookup qs' k = qlookup qs k) ∧
        (b = ((qlookup qs (queueKey seg t0)).getD []).getD 0 0 ∧
          ∀ i, ((qlookup qs' (queueKey seg t0)).getD []).getD i 0 =
            ((qlookup qs (queueKey seg t0)).getD []).getD (i + 1) 0) := by
    cases hq : qlookup qs (queueKey seg t0) with
    | none =>
        refine ⟨qs, 0, ?_, fun k _ => rfl, ?_, ?_⟩
        · simp [fillStep, ht, hq]
        · simp [hq]
        · intro i
          simp [hq]
    | some bits =>
        cases bits with
        | nil =>
            refine ⟨qs, 0, ?_, fun k _ => rfl, ?_, ?_⟩
            · simp [fillStep, ht, hq]
            · simp [hq]
            · intro i
              simp [hq]
        | cons b restBits =>
            refine ⟨qset qs (queueKey seg t0) restBits, b, ?_, ?_, ?_, ?_⟩
            · simp [fillStep, ht, hq]
            · intro k hk
              exact qlookup_qset_other qs (queueKey seg t0) k restBits hk
            · simp [hq]
            · intro i
              rw [qlookup_qset_self qs (queueKey seg t0) (b :: restBits) restBits hq]
              simp [hq]
  obtain ⟨hb, htail⟩ := hq_own
  obtain ⟨ih1, ih2, ih3, ih4⟩ := ih qs' (setM acc c.1 c.2 b) hnd'
  rw [FillConcl, hfold, hstep]
  refine ⟨?_, ?_, ?_, ?_⟩
  · intro k h90 h10
    rw [ih1 k h90 h10]
    apply hq_other
    rcases ht0 with rfl | rfl
    · exact h90
    · exact h10
  · intro rc hrc
    rw [ih2 rc (fun h => hrc (List.mem_cons_of_mem _ h)),
      setM_ne _ _ _ _ _ (by
        intro he
        exact hrc (he ▸ List.mem_cons_self c cells))]
  · intro rc hrc hrct
    rcases List.mem_cons.mp hrc with rfl | hrc'
    · rw [ht] at hrct
      exact absurd hrct (by simp)
    · exact ih3 rc hrc' hrct
  · intro t htv i hi
    by_cases hts : t = t0
    · subst hts
      have hfil : (c :: cells).filter (fun rc => typeOf hole seg rc = some t) =
          c :: cells.filter (fun rc => typeOf hole seg rc = some t) := by
        rw [List.filter_cons, if_pos (by simp [ht])]
      rw [hfil] at hi ⊢
      cases i with
      | zero =>
          rw [List.getD_cons_zero]
          rw [ih2 c hc]
          obtain ⟨r0, c0⟩ := c
          rw [setM_self, hb]
      | succ j =>
          rw [List.getD_cons_succ]
          have hj : j < (cells.filter (fun rc => typeOf hole seg rc = some t)).length := by
            simpa using Nat.lt_of_succ_lt_succ hi
          rw [ih4 t htv j hj, htail j]
    · have hfil : (c :: cells).filter (fun rc => typeOf hole seg rc = some t) =
          cells.filter (fun rc => typeOf hole seg rc = some t) := by
        rw [List.filter_cons, if_neg (by simp [ht]; exact fun he => hts he.symm)]
      rw [hfil] at hi ⊢
      rw [ih4 t htv i hi,
        hq_other (queueKey seg t) (queueKey_snd_ne seg t t0 hts)]

/-- Full characterization of one segment's scan in
`fill_matrix_from_segments`. -/
theorem fillFold_char (hole : Bool) (seg : Segment) :
    ∀ (cells : List (Nat × Nat)) (qs : Queues) (acc : Mat),
    cells.Nodup → FillConcl hole seg cells qs acc := by
  intro cells
  induction cells with
  | nil =>
      intro qs acc _
      refine ⟨fun k _ _ => rfl, fun rc _ => rfl, fun rc h => absurd h (by simp), ?_⟩
      intro t _ i hi
      simp at hi
  | cons c cells ih =>
      intro qs acc hnd
      have hc : c ∉ cells := (List.nodup_cons.mp hnd).1
      have hnd' : List.Nodup cells := (List.nodup_cons.mp hnd).2
      rcases typeOf_cases hole seg c with ht | ht | ht
      · -- hole cell
        have hfold : fillFold hole seg (c :: cells) (qs, acc) =
            fillFold hole seg cells (fillStep hole seg (qs, acc) c) := rfl
        have hstep : fillStep hole seg (qs, acc) c =
            (qs, setM acc c.1 c.2 0) := by
          simp [fillStep, ht]
        obtain ⟨ih1, ih2, ih3, ih4⟩ := ih qs (setM acc c.1 c.2 0) hnd'
        rw [FillConcl, hfold, hstep]
        refine ⟨ih1, ?_, ?_, ?_⟩
        · intro rc hrc
          rw [ih2 rc (fun h => hrc (List.mem_cons_of_mem _ h)),
            setM_ne _ _ _ _ _ (by
              intro he
              exact hrc (he ▸ List.mem_cons_self c cells))]
        · intro rc hrc hrct
          rcases List.mem_cons.mp hrc with rfl | hrc'
          · rw [ih2 rc hc]
            obtain ⟨r0, c0⟩ := rc
            exact setM_self acc r0 c0 0
          · exact ih3 rc hrc' hrct
        · intro t htv i hi
          have hfil : (c :: cells).filter (fun rc => typeOf hole seg rc = some t) =
              cells.filter (fun rc => typeOf hole seg rc = some t) := by
            rw [List.filter_cons, if_neg (by
              simp [ht])]
          rw [hfil] at hi ⊢
          exact ih4 t htv i hi
      · exact fillFold_char_typed hole seg c cells qs acc hc hnd' ih TYPE_90 (Or.inl rfl) ht
      · exact fillFold_char_typed hole seg c cells qs acc hc hnd' ih TYPE_10 (Or.inr rfl) ht

theorem scanRows_nodup (seg : Segment) : (scanRows seg).Nodup := by
  unfold scanRows
  split
  · exact List.nodup_range' _ _ 1 (by decide)
  · exact List.nodup_reverse.mpr (List.nodup_range' _ _ 1 (by decide))

theorem scanCols_nodup (seg : Segment) : (scanCols seg).Nodup := by
  unfold scanCols
  split
  · exact List.nodup_range' _ _ 1 (by decide)
  · exact List.nodup_reverse.mpr (List.nodup_range' _ _ 1 (by decide))

theorem scanCells_nodup (seg : Segment) : (scanCells seg).Nodup := by
  show ((scanRows seg).product (scanCols seg)).Nodup
  exact List.Nodup.product (scanRows_nodup seg) (scanCols_nodup seg)

theorem scanCells_pair_disjoint (s1 s2 : Segment) (h1 : s1 ∈ SEGMENTS)
    (h2 : s2 ∈ SEGMENTS) (hne : s1 ≠ s2) (rc : Nat × Nat)
    (hm : rc ∈ scanCells s1) : rc ∉ scanCells s2 := by
  intro hm2
  rw [mem_scanCells] at hm hm2
  rcases mem_SEGMENTS_cases s1 h1 with rfl | rfl | rfl | rfl <;>
    rcases mem_SEGMENTS_cases s2 h2 with rfl | rfl | rfl | rfl <;>
    first
      | exact hne rfl
      | (simp [segTL, segTR, segBL, segBR] at hm hm2; omega)

theorem mem_of_getD {α : Type} (l : List α) (i : Nat) (h : i < l.length)
    (d : α) : l.getD i d ∈ l := by
  rw [List.getD_eq_getElem l d h]
  exact List.getElem_mem h

theorem mem_scanCells_of_typedCells (hole : Bool) (seg : Segment) (t : Nat)
    (rc : Nat × Nat) (h : rc ∈ typedCells hole seg t) : rc ∈ scanCells seg :=
  List.mem_of_mem_filter h

theorem segTL_ne_segTR : segTL ≠ segTR := by
  intro h
  exact absurd (congrArg Segment.addr_90 h) (by decide)

theorem segTL_ne_segBL : segTL ≠ segBL := by
  intro h
  exact absurd (congrArg Segment.addr_90 h) (by decide)

theorem segTL_ne_segBR : segTL ≠ segBR := by
  intro h
  exact absurd (congrArg Segment.addr_90 h) (by decide)

theorem segTR_ne_segBL : segTR ≠ segBL := by
  intro h
  exact absurd (congrArg Segment.addr_90 h) (by decide)

theorem segTR_ne_segBR : segTR ≠ segBR := by
  intro h
  exact absurd (congrArg Segment.addr_90 h) (by decide)

theorem segBL_ne_segBR : segBL ≠ segBR := by
  intro h
  exact absurd (congrArg Segment.addr_90 h) (by decide)

/-- The fill state after the top-left segment's scan. -/
def fillSt1 (hole : Bool) (qs : Queues) : Queues × Mat :=
  fillFold hole segTL (scanCells segTL) (qs, fun _ _ => 0)

/-- The fill state after the top-right segment's scan. -/
def fillSt2 (hole : Bool) (qs : Queues) : Queues × Mat :=
  fillFold hole segTR (scanCells segTR) (fillSt1 hole qs)

/-- The fill state after the bottom-left segment's scan. -/
def fillSt3 (hole : Bool) (qs : Queues) : Queues × Mat :=
  fillFold hole segBL (scanCells segBL) (fillSt2 hole qs)

/-- The fill state after the bottom-right segment's scan. -/
def fillSt4 (hole : Bool) (qs : Queues) : Queues × Mat :=
  fillFold hole segBR (scanCells segBR) (fillSt3 hole qs)

theorem fill_unfold (hole : Bool) (qs : Queues) :
    fill_matrix_from_segments hole qs = (fillSt4 hole qs).2 := rfl

theorem fillSt1_eta (hole : Bool) (qs : Queues) :
    fillSt1 hole qs = fillFold hole segTL (scanCells segTL)
      (qs, fun _ _ => 0) := rfl

theorem fillSt2_eta (hole : Bool) (qs : Queues) :
    fillSt2 hole qs = fillFold hole segTR (scanCells segTR)
      ((fillSt1 hole qs).1, (fillSt1 hole qs).2) := rfl

theorem fillSt3_eta (hole : Bool) (qs : Queues) :
    fillSt3 hole qs = fillFold hole segBL (scanCells segBL)
      ((fillSt2 hole qs).1, (fillSt2 hole qs).2) := rfl

theorem fillSt4_eta (hole : Bool) (qs : Queues) :
    fillSt4 hole qs = fillFold hole segBR (scanCells segBR)
      ((fillSt3 hole qs).1, (fillSt3 hole qs).2) := rfl

/-- Global fill characterization: the `i`-th scan-ordered cell of type `t`
in any segment receives the `i`-th bit of the queue at that segment's key
for `t` (0 when the queue is missing or exhausted). -/
theorem fill_lookup_global (hole : Bool) (qs : Queues) (seg : Segment)
    (hseg : seg ∈ SEGMENTS) (t : Nat) (ht : t = TYPE_90 ∨ t = TYPE_10)
    (i : Nat) (hi : i < (typedCells hole seg t).length) :
    fill_matrix_from_segments hole qs
        ((typedCells hole seg t).getD i (0, 0)).1
        ((typedCells hole seg t).getD i (0, 0)).2
      = ((qlookup qs (queueKey seg t)).getD []).getD i 0 := by
  rcases mem_SEGMENTS_cases seg hseg with rfl | rfl | rfl | rfl
  · -- TL segment
    have hcell : (typedCells hole segTL t).getD i (0, 0) ∈ scanCells segTL :=
      mem_scanCells_of_typedCells hole segTL t _ (mem_of_getD _ i hi _)
    obtain ⟨hTL1, hTL2, hTL3, hTL4⟩ := fillFold_char hole segTL (scanCells segTL)
      qs (fun _ _ => 0) (scanCells_nodup segTL)
    obtain ⟨hTR1, hTR2, hTR3, hTR4⟩ := fillFold_char hole segTR (scanCells segTR)
      (fillSt1 hole qs).1 (fillSt1 hole qs).2 (scanCells_nodup segTR)
    obtain ⟨hBL1, hBL2, hBL3, hBL4⟩ := fillFold_char hole segBL (scanCells segBL)
      (fillSt2 hole qs).1 (fillSt2 hole qs).2 (scanCells_nodup segBL)
    obtain ⟨hBR1, hBR2, hBR3, hBR4⟩ := fillFold_char hole segBR (scanCells segBR)
      (fillSt3 hole qs).1 (fillSt3 hole qs).2 (scanCells_nodup segBR)
    rw [fill_unfold]
    rw [fillSt4_eta, hBR2 _ (scanCells_pair_disjoint segTL segBR (by simp [SEGMENTS]) (by simp [SEGMENTS]) segTL_ne_segBR _ hcell)]
    rw [fillSt3_eta, hBL2 _ (scanCells_pair_disjoint segTL segBL (by simp [SEGMENTS]) (by simp [SEGMENTS]) segTL_ne_segBL _ hcell)]
    rw [fillSt2_eta, hTR2 _ (scanCells_pair_disjoint segTL segTR (by simp [SEGMENTS]) (by simp [SEGMENTS]) segTL_ne_segTR _ hcell)]
    rw [fillSt1_eta]
    exact hTL4 t ht i hi
  · -- TR segment
    have hcell : (typedCells hole segTR t).getD i (0, 0) ∈ scanCells segTR :=
      mem_scanCells_of_typedCells hole segTR t _ (mem_of_getD _ i hi _)
    obtain ⟨hTR1, hTR2, hTR3, hTR4⟩ := fillFold_char hole segTR (scanCells segTR)
      (fillSt1 hole qs).1 (fillSt1 hole qs).2 (scanCells_nodup segTR)
    obtain ⟨hBL1, hBL2, hBL3, hBL4⟩ := fillFold_char hole segBL (scanCells segBL)
      (fillSt2 hole qs).1 (fillSt2 hole qs).2 (scanCells_nodup segBL)
    obtain ⟨hBR1, hBR2, hBR3, hBR4⟩ := fillFold_char hole segBR (scanCells segBR)
      (fillSt3 hole qs).1 (fillSt3 hole qs).2 (scanCells_nodup segBR)
    obtain ⟨hTL1, hTL2, hTL3, hTL4⟩ := fillFold_char hole segTL (scanCells segTL)
      qs (fun _ _ => 0) (scanCells_nodup segTL)
    rw [fill_unfold]
    rw [fillSt4_eta, hBR2 _ (scanCells_pair_disjoint segTR segBR (by simp [SEGMENTS]) (by simp [SEGMENTS]) segTR_ne_segBR _ hcell)]
    rw [fillSt3_eta, hBL2 _ (scanCells_pair_disjoint segTR segBL (by simp [SEGMENTS]) (by simp [SEGMENTS]) segTR_ne_segBL _ hcell)]
    rw [fillSt2_eta]
    refine Eq.trans (hTR4 t ht i hi) ?_
    rw [fillSt1_eta]
    rw [hTL1 (queueKey segTR t) (by rcases ht with rfl | rfl <;> decide)
      (by rcases ht with rfl | rfl <;> decide)]
  · -- BL segment
    have hcell : (typedCells hole segBL t).getD i (0, 0) ∈ scanCells segBL :=
      mem_scanCells_of_typedCells hole segBL t _ (mem_of_getD _ i hi _)
    obtain ⟨hBL1, hBL2, hBL3, hBL4⟩ := fillFold_char hole segBL (scanCells segBL)
      (fillSt2 hole qs).1 (fillSt2 hole qs).2 (scanCells_nodup segBL)
    obtain ⟨hBR1, hBR2, hBR3, hBR4⟩ := fillFold_char hole segBR (scanCells segBR)
      (fillSt3 hole qs).1 (fillSt3 hole qs).2 (scanCells_nodup segBR)
    obtain ⟨hTL1, hTL2, hTL3, hTL4⟩ := fillFold_char hole segTL (scanCells segTL)
      qs (fun _ _ => 0) (scanCells_nodup segTL)
    obtain ⟨hTR1, hTR2, hTR3, hTR4⟩ := fillFold_char hole segTR (scanCells segTR)
      (fillSt1 hole qs).1 (fillSt1 hole qs).2 (scanCells_nodup segTR)
    rw [fill_unfold]
    rw [fillSt4_eta, hBR2 _ (scanCells_pair_disjoint segBL segBR (by simp [SEGMENTS]) (by simp [SEGMENTS]) segBL_ne_segBR _ hcell)]
    rw [fillSt3_eta]
    refine Eq.trans (hBL4 t ht i hi) ?_
    rw [fillSt2_eta]
    rw [hTR1 (queueKey segBL t) (by rcases ht with rfl | rfl <;> decide)
      (by rcases ht with rfl | rfl <;> decide)]
    rw [fillSt1_eta]
    rw [hTL1 (queueKey segBL t) (by rcases ht with rfl | rfl <;> decide)
      (by rcases ht with rfl | rfl <;> decide)]
  · -- BR segment
    obtain ⟨hBR1, hBR2, hBR3, hBR4⟩ := fillFold_char hole segBR (scanCells segBR)
      (fillSt3 hole qs).1 (fillSt3 hole qs).2 (scanCells_nodup segBR)
    obtain ⟨hTL1, hTL2, hTL3, hTL4⟩ := fillFold_char hole segTL (scanCells segTL)
      qs (fun _ _ => 0) (scanCells_nodup segTL)
    obtain ⟨hTR1, hTR2, hTR3, hTR4⟩ := fillFold_char hole segTR (scanCells segTR)
      (fillSt1 hole qs).1 (fillSt1 hole qs).2 (scanCells_nodup segTR)
    obtain ⟨hBL1, hBL2, hBL3, hBL4⟩ := fillFold_char hole segBL (scanCells segBL)
      (fillSt2 hole qs).1 (fillSt2 hole qs).2 (scanCells_nodup segBL)
    rw [fill_unfold]
    rw [fillSt4_eta]
    refine Eq.trans (hBR4 t ht i hi) ?_
    rw [fillSt3_eta]
    rw [hBL1 (queueKey segBR t) (by rcases ht with rfl | rfl <;> decide)
      (by rcases ht with rfl | rfl <;> decide)]
    rw [fillSt2_eta]
    rw [hTR1 (queueKey segBR t) (by rcases ht with rfl | rfl <;> decide)
      (by rcases ht with rfl | rfl <;> decide)]
    rw [fillSt1_eta]
    rw [hTL1 (queueKey segBR t) (by rcases ht with rfl | rfl <;> decide)
      (by rcases ht with rfl | rfl <;> decide)]

/-- Global fill characterization for hole cells: they are always written 0
and consume nothing. -/
theorem fill_hole_global (hole : Bool) (qs : Queues) (seg : Segment)
    (hseg : seg ∈ SEGMENTS) (rc : Nat × Nat) (hm : rc ∈ scanCells seg)
    (ht : typeOf hole seg rc = none) :
    fill_matrix_from_segments hole qs rc.1 rc.2 = 0 := by
  rcases mem_SEGMENTS_cases seg hseg with rfl | rfl | rfl | rfl
  · -- TL segment
    obtain ⟨-, hTL2, hTL3, -⟩ := fillFold_char hole segTL (scanCells segTL)
      qs (fun _ _ => 0) (scanCells_nodup segTL)
    obtain ⟨-, hTR2, hTR3, -⟩ := fillFold_char hole segTR (scanCells segTR)
      (fillSt1 hole qs).1 (fillSt1 hole qs).2 (scanCells_nodup segTR)
    obtain ⟨-, hBL2, hBL3, -⟩ := fillFold_char hole segBL (scanCells segBL)
      (fillSt2 hole qs).1 (fillSt2 hole qs).2 (scanCells_nodup segBL)
    obtain ⟨-, hBR2, hBR3, -⟩ := fillFold_char hole segBR (scanCells segBR)
      (fillSt3 hole qs).1 (fillSt3 hole qs).2 (scanCells_nodup segBR)
    rw [fill_unfold]
    rw [fillSt4_eta, hBR2 _ (scanCells_pair_disjoint segTL segBR (by simp [SEGMENTS]) (by simp [SEGMENTS]) segTL_ne_segBR _ hm)]
    rw [fillSt3_eta, hBL2 _ (scanCells_pair_disjoint segTL segBL (by simp [SEGMENTS]) (by simp [SEGMENTS]) segTL_ne_segBL _ hm)]
    rw [fillSt2_eta, hTR2 _ (scanCells_pair_disjoint segTL segTR (by simp [SEGMENTS]) (by simp [SEGMENTS]) segTL_ne_segTR _ hm)]
    rw [fillSt1_eta]
    exact hTL3 rc hm ht
  · -- TR segment
    obtain ⟨-, hTR2, hTR3, -⟩ := fillFold_char hole segTR (scanCells segTR)
      (fillSt1 hole qs).1 (fillSt1 hole qs).2 (scanCells_nodup segTR)
    obtain ⟨-, hBL2, hBL3, -⟩ := fillFold_char hole segBL (scanCells segBL)
      (fillSt2 hole qs).1 (fillSt2 hole qs).2 (scanCells_nodup segBL)
    obtain ⟨-, hBR2, hBR3, -⟩ := fillFold_char hole segBR (scanCells segBR)
      (fillSt3 hole qs).1 (fillSt3 hole qs).2 (scanCells_nodup segBR)
    rw [fill_unfold]
    rw [fillSt4_eta, hBR2 _ (scanCells_pair_disjoint segTR segBR (by simp [SEGMENTS]) (by simp [SEGMENTS]) segTR_ne_segBR _ hm)]
    rw [fillSt3_eta, hBL2 _ (scanCells_pair_disjoint segTR segBL (by simp [SEGMENTS]) (by simp [SEGMENTS]) segTR_ne_segBL _ hm)]
    rw [fillSt2_eta]
    exact hTR3 rc hm ht
  · -- BL segment
    obtain ⟨-, hBL2, hBL3, -⟩ := fillFold_char hole segBL (scanCells segBL)
      (fillSt2 hole qs).1 (fillSt2 hole qs).2 (scanCells_nodup segBL)
    obtain ⟨-, hBR2, hBR3, -⟩ := fillFold_char hole segBR (scanCells segBR)
      (fillSt3 hole qs).1 (fillSt3 hole qs).2 (scanCells_nodup segBR)
    rw [fill_unfold]
    rw [fillSt4_eta, hBR2 _ (scanCells_pair_disjoint segBL segBR (by simp [SEGMENTS]) (by simp [SEGMENTS]) segBL_ne_segBR _ hm)]
    rw [fillSt3_eta]
    exact hBL3 rc hm ht
  · -- BR segment
    obtain ⟨-, hBR2, hBR3, -⟩ := fillFold_char hole segBR (scanCells segBR)
      (fillSt3 hole qs).1 (fillSt3 hole qs).2 (scanCells_nodup segBR)
    rw [fill_unfold]
    rw [fillSt4_eta]
    exact hBR3 rc hm ht

/-! ## Chunking lemmas -/

theorem padTo_length (n : Nat) (l : List Nat) (h : l.length ≤ n) :
    (padTo n l).length = n := by
  simp [padTo]
  omega

theorem padTo_of_length (n : Nat) (l : List Nat) (h : l.length = n) :
    padTo n l = l := by
  simp [padTo, h]

theorem bits_to_data_bytes_length : ∀ (n : Nat) (bits : List Nat),
    bits.length = 8 * n → (bits_to_data_bytes bits).length = n := by
  intro n
  induction n with
  | zero =>
      intro bits hlen
      have : bits = [] := List.eq_nil_of_length_eq_zero (by omega)
      subst this
      rfl
  | succ n ih =>
      intro bits hlen
      have h8 : (bits.take 8).length = 8 := by
        simp [List.length_take]
        omega
      rw [← List.take_append_drop 8 bits, bits_to_data_bytes_eight _ _ h8,
        List.length_cons, ih (bits.drop 8) (by simp [List.length_drop]; omega)]

theorem chunk40_length_mem : ∀ (k : Nat) (bits : List Nat),
    bits.length ≤ 40 * k → ∀ c ∈ chunk40 bits, c.length = 40 := by
  intro k
  induction k with
  | zero =>
      intro bits hlen c hc
      have : bits = [] := List.eq_nil_of_length_eq_zero (by omega)
      subst this
      simp [chunk40, chunk40Go] at hc
  | succ k ih =>
      intro bits hlen c hc
      by_cases hnil : bits = []
      · subst hnil
        simp [chunk40, chunk40Go] at hc
      · rw [chunk40_eq bits hnil] at hc
        rcases List.mem_cons.mp hc with rfl | hc'
        · exact padTo_length 40 _ (by simp [List.length_take])
        · exact ih (bits.drop 40) (by simp [List.length_drop]; omega) c hc'

theorem chunk40_entries : ∀ (k : Nat) (bits : List Nat),
    bits.length ≤ 40 * k → (∀ b ∈ bits, b < 2) →
    ∀ c ∈ chunk40 bits, ∀ b ∈ c, b < 2 := by
  intro k
  induction k with
  | zero =>
      intro bits hlen _ c hc
      have : bits = [] := List.eq_nil_of_length_eq_zero (by omega)
      subst this
      simp [chunk40, chunk40Go] at hc
  | succ k ih =>
      intro bits hlen hb c hc
      by_cases hnil : bits = []
      · subst hnil
        simp [chunk40, chunk40Go] at hc
      · rw [chunk40_eq bits hnil] at hc
        rcases List.mem_cons.mp hc with rfl | hc'
        · intro b hbm
          rcases List.mem_append.mp hbm with hbm' | hbm'
          · exact hb b (List.mem_of_mem_take hbm')
          · rw [List.eq_of_mem_replicate hbm']
            omega
        · exact ih (bits.drop 40) (by simp [List.length_drop]; omega)
            (fun b hbm => hb b (List.mem_of_mem_drop hbm)) c hc'

theorem chunk40_flatten : ∀ (k : Nat) (bits : List Nat),
    bits.length ≤ 40 * k →
    (chunk40 bits).flatten =
      bits ++ List.replicate ((40 - bits.length % 40) % 40) 0 := by
  intro k
  induction k with
  | zero =>
      intro bits hlen
      have : bits = [] := List.eq_nil_of_length_eq_zero (by omega)
      subst this
      rfl
  | succ k ih =>
      intro bits hlen
      by_cases hnil : bits = []
      · subst hnil
        rfl
      · rw [chunk40_eq bits hnil, List.flatten_cons,
          ih (bits.drop 40) (by simp [List.length_drop]; omega)]
        by_cases h40 : bits.length ≤ 40
        · rw [List.take_of_length_le h40, List.drop_eq_nil_of_le h40]
          show padTo 40 bits ++ ([] ++ _) = _
          have hlp : (0 : Nat) % 40 = 0 := rfl
          simp only [List.nil_append, padTo, List.length_nil, Nat.zero_mod,
            Nat.sub_zero, Nat.mod_self, List.replicate_zero, List.append_nil,
            List.append_assoc, List.append_cancel_left_eq]
          have hpos : 0 < bits.length := List.length_pos.mpr hnil
          rcases Nat.lt_or_ge bits.length 40 with hlt | hge
          · have h1 : bits.length % 40 = bits.length := Nat.mod_eq_of_lt hlt
            have h2 : (40 - bits.length) % 40 = 40 - bits.length :=
              Nat.mod_eq_of_lt (by omega)
            rw [h1, h2]
          · have h1 : bits.length = 40 := by omega
            rw [h1]
        · have hlen40 : (bits.take 40).length = 40 := by
            simp [List.length_take]
            omega
          rw [padTo_of_length 40 _ hlen40]
          rw [show (bits.drop 40).length = bits.length - 40 from by simp,
            ← List.append_assoc, List.take_append_drop]
          have hm : (bits.length - 40) % 40 = bits.length % 40 := by
            conv_rhs => rw [show bits.length = (bits.length - 40) + 1 * 40 from by omega]
            rw [Nat.add_mul_mod_self_right]
          rw [hm]

theorem chunksOf_flatten {α : Type} (n : Nat) : ∀ (k : Nat) (l : List α),
    l.length ≤ k → (chunksOf n l).flatten = l := by
  intro k
  induction k with
  | zero =>
      intro l hlen
      have : l = [] := List.eq_nil_of_length_eq_zero (by omega)
      subst this
      rfl
  | succ k ih =>
      intro l hlen
      cases l with
      | nil => rfl
      | cons x xs =>
          rw [chunksOf_eq, List.flatten_cons,
            ih (xs.drop (n - 1)) (by simp [List.length_drop] at hlen ⊢; omega),
            List.cons_append, List.take_append_drop]

/-! ## Sorting lemmas for `used_addrs` -/

theorem insertDesc_perm (a : Nat) : ∀ (l : List Nat),
    (insertDesc a l).Perm (a :: l) := by
  intro l
  induction l with
  | nil => exact List.Perm.refl _
  | cons b bs ih =>
      show (if b ≤ a then a :: b :: bs else b :: insertDesc a bs).Perm _
      split
      · exact List.Perm.refl _
      · exact List.Perm.trans (List.Perm.cons b ih) (List.Perm.swap a b bs)

theorem sortDesc_perm : ∀ (l : List Nat), (sortDesc l).Perm l := by
  intro l
  induction l with
  | nil => exact List.Perm.refl _
  | cons a as ih =>
      show (insertDesc a (sortDesc as)).Perm _
      exact List.Perm.trans (insertDesc_perm a (sortDesc as)) (List.Perm.cons a ih)

theorem insertDesc_sorted (a : Nat) : ∀ (l : List Nat),
    l.Pairwise (fun x y => y ≤ x) →
    (insertDesc a l).Pairwise (fun x y => y ≤ x) := by
  intro l
  induction l with
  | nil => intro _; simp [insertDesc]
  | cons b bs ih =>
      intro hp
      show (if b ≤ a then a :: b :: bs else b :: insertDesc a bs).Pairwise _
      rcases List.pairwise_cons.mp hp with ⟨hb, hbs⟩
      split
      · refine List.pairwise_cons.mpr ⟨?_, hp⟩
        intro x hx
        rcases List.mem_cons.mp hx with rfl | hx'
        · assumption
        · exact le_trans (hb x hx') (by assumption)
      · refine List.pairwise_cons.mpr ⟨?_, ih hbs⟩
        intro x hx
        rcases (insertDesc_perm a bs).mem_iff.mp hx with hx'
        rcases List.mem_cons.mp hx' with rfl | hx''
        · omega
        · exact hb x hx''

theorem sortDesc_sorted : ∀ (l : List Nat),
    (sortDesc l).Pairwise (fun x y => y ≤ x) := by
  intro l
  induction l with
  | nil => simp [sortDesc]
  | cons a as ih =>
      show (insertDesc a (sortDesc as)).Pairwise _
      exact insertDesc_sorted a (sortDesc as) ih

theorem used_addrs_nodup (qs : Queues) : (used_addrs qs).Nodup :=
  (sortDesc_perm _).nodup_iff.mpr (List.nodup_dedup _)

theorem mem_used_addrs (qs : Queues) (a t : Nat) (bits : List Nat)
    (h : qlookup qs (a, t) = some bits) : a ∈ used_addrs qs := by
  unfold used_addrs
  rw [(sortDesc_perm _).mem_iff, List.mem_dedup]
  unfold qlookup at h
  cases hf : List.find? (fun e => e.1 = (a, t)) qs with
  | none => rw [hf] at h; simp at h
  | some e =>
      have he : e ∈ qs := List.mem_of_find?_eq_some hf
      have hk : e.1 = (a, t) := by
        have := List.find?_some hf
        exact of_decide_eq_true this
      refine List.mem_map.mpr ⟨e.1, List.mem_map.mpr ⟨e, he, rfl⟩, ?_⟩
      rw [hk]

/-! ## Decoding a payload run -/

theorem parse_body_group (addr : Nat) (qs : Queues) (t d0 d1 d2 d3 d4 : Nat)
    (rest : List Nat) (ht : t = TYPE_90 ∨ t = TYPE_10) :
    parse_body addr qs (t :: d0 :: d1 :: d2 :: d3 :: d4 :: rest) =
      parse_body addr (qappend qs (addr, t)
        (unpack_bytes [d0, d1, d2, d3, d4])) rest := by
  show (if t = TYPE_90 ∨ t = TYPE_10 then _ else qs) = _
  rw [if_pos ht]

theorem parse_body_homog (addr t : Nat) (ht : t = TYPE_90 ∨ t = TYPE_10) :
    ∀ (gs : List (List Nat)) (qs : Queues), gs ≠ [] →
    (∀ g ∈ gs, ∃ d, g = t :: d ∧ d.length = 5) →
    parse_body addr qs gs.flatten =
      qappend qs (addr, t)
        ((gs.map (fun g => unpack_bytes (g.drop 1))).flatten) := by
  intro gs
  induction gs with
  | nil => intro qs h _; exact absurd rfl h
  | cons g gs ih =>
      intro qs _ hshape
      obtain ⟨d, rfl, hd5⟩ := hshape g (List.mem_cons_self _ _)
      rcases d with _ | ⟨d0, _ | ⟨d1, _ | ⟨d2, _ | ⟨d3, _ | ⟨d4, _ | ⟨d5, d⟩⟩⟩⟩⟩⟩ <;>
        simp only [List.length_nil, List.length_cons] at hd5 <;> try omega
      show parse_body addr qs
          (t :: d0 :: d1 :: d2 :: d3 :: d4 :: gs.flatten) = _
      rw [parse_body_group addr qs t d0 d1 d2 d3 d4 gs.flatten ht]
      cases gs with
      | nil =>
          show qappend qs (addr, t) _ = _
          simp
      | cons g' gs' =>
          rw [ih _ (by simp)
            (fun g hm => hshape g (List.mem_cons_of_mem _ hm)),
            qappend_qappend]
          simp

theorem decodeFold_payloadList (addr t : Nat) (ht : t = TYPE_90 ∨ t = TYPE_10) :
    ∀ (gss : List (List (List Nat))) (qs : Queues), gss ≠ [] →
    (∀ gs ∈ gss, gs ≠ [] ∧ ∀ g ∈ gs, ∃ d, g = t :: d ∧ d.length = 5) →
    List.foldl payloadStep qs (gss.map (fun gs => addr :: gs.flatten)) =
      qappend qs (addr, t)
        ((gss.map (fun gs =>
          (gs.map (fun g => unpack_bytes (g.drop 1))).flatten)).flatten) := by
  intro gss
  induction gss with
  | nil => intro qs h _; exact absurd rfl h
  | cons gs gss ih =>
      intro qs _ hshape
      obtain ⟨hgne, hgs⟩ := hshape gs (List.mem_cons_self _ _)
      have hplen : 7 ≤ (addr :: gs.flatten).length := by
        cases gs with
        | nil => exact absurd rfl hgne
        | cons g gs' =>
            obtain ⟨d, rfl, hd5⟩ := hgs g (List.mem_cons_self _ _)
            simp [List.length_append, hd5]
      have hstep : payloadStep qs (addr :: gs.flatten) =
          qappend qs (addr, t)
            ((gs.map (fun g => unpack_bytes (g.drop 1))).flatten) := by
        unfold payloadStep
        rw [if_neg (by omega)]
        exact parse_body_homog addr t ht gs qs hgne hgs
      show List.foldl payloadStep (payloadStep qs (addr :: gs.flatten))
          (gss.map (fun gs => addr :: gs.flatten)) = _
      rw [hstep]
      cases gss with
      | nil => simp
      | cons gs' gss' =>
          rw [ih _ (by simp)
            (fun x hm => hshape x (List.mem_cons_of_mem _ hm)),
            qappend_qappend]
          simp

theorem groupsFor_shape (t : Nat) (bits : List Nat) :
    ∀ g ∈ groupsFor t bits, ∃ d, g = t :: d ∧ d.length = 5 := by
  intro g hg
  obtain ⟨c, hc, rfl⟩ := List.mem_map.mp hg
  refine ⟨bits_to_data_bytes c, rfl, ?_⟩
  have hc40 : c.length = 40 :=
    chunk40_length_mem bits.length bits (by omega) c hc
  exact bits_to_data_bytes_length 5 c (by omega)

theorem chunksOf_mem_props {α : Type} (n : Nat) : ∀ (k : Nat) (l : List α),
    l.length ≤ k → ∀ gs ∈ chunksOf n l,
    gs ≠ [] ∧ gs.length ≤ max n 1 ∧ ∀ g ∈ gs, g ∈ l := by
  intro k
  induction k with
  | zero =>
      intro l hlen gs hgs
      have : l = [] := List.eq_nil_of_length_eq_zero (by omega)
      subst this
      simp [chunksOf, chunksOfGo] at hgs
  | succ k ih =>
      intro l hlen gs hgs
      cases l with
      | nil => simp [chunksOf, chunksOfGo] at hgs
      | cons x xs =>
          rw [chunksOf_eq] at hgs
          rcases List.mem_cons.mp hgs with rfl | hgs'
          · refine ⟨by simp, ?_, ?_⟩
            · simp only [List.length_cons, List.length_take]
              omega
            · intro g hg
              rcases List.mem_cons.mp hg with rfl | hg'
              · exact List.mem_cons_self _ _
              · exact List.mem_cons_of_mem _ (List.mem_of_mem_take hg')
          · obtain ⟨h1, h2, h3⟩ := ih (xs.drop (n - 1))
              (by simp [List.length_drop] at hlen ⊢; omega) gs hgs'
            exact ⟨h1, h2, fun g hg =>
              List.mem_cons_of_mem _ (List.mem_of_mem_drop (h3 g hg))⟩

theorem flatten_map_flatten {α β : Type} (f : α → List β) :
    ∀ (L : List (List α)),
    (L.map (fun gs => (gs.map f).flatten)).flatten = (L.flatten.map f).flatten := by
  intro L
  induction L with
  | nil => rfl
  | cons gs L ih => simp [ih]

/-- Decoding all payloads emitted for one (addr, type) queue appends exactly
the queue's bits padded with zeros to a multiple of 40. -/
theorem decodeFold_payloadsForKey (addr t : Nat) (ht : t = TYPE_90 ∨ t = TYPE_10)
    (bits : List Nat) (hne : bits ≠ []) (hb : ∀ b ∈ bits, b < 2) (qs : Queues) :
    List.foldl payloadStep qs (payloadsForKey 4 addr t bits) =
      qappend qs (addr, t)
        (bits ++ List.replicate ((40 - bits.length % 40) % 40) 0) := by
  have hgne : groupsFor t bits ≠ [] := by
    unfold groupsFor
    rw [chunk40_eq bits hne]
    simp
  have hcne : chunksOf 4 (groupsFor t bits) ≠ [] := by
    cases hg : groupsFor t bits with
    | nil => exact absurd hg hgne
    | cons g gs => rw [chunksOf_eq]; simp
  unfold payloadsForKey
  rw [decodeFold_payloadList addr t ht _ qs hcne (fun gs hgs => by
    obtain ⟨h1, _, h3⟩ := chunksOf_mem_props 4 (groupsFor t bits).length
      (groupsFor t bits) (le_refl _) gs hgs
    exact ⟨h1, fun g hg => groupsFor_shape t bits g (h3 g hg)⟩)]
  congr 1
  rw [flatten_map_flatten, chunksOf_flatten 4 (groupsFor t bits).length _ (le_refl _)]
  unfold groupsFor
  rw [List.map_map]
  have hmapeq : (chunk40 bits).map
      ((fun g => unpack_bytes (g.drop 1)) ∘ (fun c => t :: bits_to_data_bytes c)) =
      (chunk40 bits).map (fun c => unpack_bytes (bits_to_data_bytes c)) := by
    apply List.map_congr_left
    intro c _
    rfl
  rw [hmapeq]
  have hmapid : (chunk40 bits).map (fun c => unpack_bytes (bits_to_data_bytes c)) =
      (chunk40 bits).map id := by
    apply List.map_congr_left
    intro c hc
    have hc40 : c.length = 40 :=
      chunk40_length_mem bits.length bits (by omega) c hc
    exact unpack_pack_mul8 5 c (by omega)
      (chunk40_entries bits.length bits (by omega) hb c hc)
  rw [hmapid, List.map_id]
  exact chunk40_flatten bits.length bits (by omega)

theorem decodeFold_payloadsForKey_lookup_other (addr t : Nat)
    (ht : t = TYPE_90 ∨ t = TYPE_10) (bits : List Nat) (k : Nat × Nat)
    (hk : k ≠ (addr, t)) (qs : Queues) :
    qlookup (List.foldl payloadStep qs (payloadsForKey 4 addr t bits)) k =
      qlookup qs k := by
  by_cases hne : bits = []
  · subst hne
    rfl
  · have hgne : groupsFor t bits ≠ [] := by
      unfold groupsFor
      rw [chunk40_eq bits hne]
      simp
    have hcne : chunksOf 4 (groupsFor t bits) ≠ [] := by
      cases hg : groupsFor t bits with
      | nil => exact absurd hg hgne
      | cons g gs => rw [chunksOf_eq]; simp
    unfold payloadsForKey
    rw [decodeFold_payloadList addr t ht _ qs hcne (fun gs hgs => by
      obtain ⟨h1, _, h3⟩ := chunksOf_mem_props 4 (groupsFor t bits).length
        (groupsFor t bits) (le_refl _) gs hgs
      exact ⟨h1, fun g hg => groupsFor_shape t bits g (h3 g hg)⟩)]
    exact qlookup_qappend_other qs (addr, t) k _ hk

theorem addrBlock_eq (qs : Queues) (gpp addr : Nat) :
    addrBlock qs gpp addr =
      (match qlookup qs (addr, TYPE_90) with
        | none => []
        | some bits => payloadsForKey gpp addr TYPE_90 bits) ++
      (match qlookup qs (addr, TYPE_10) with
        | none => []
        | some bits => payloadsForKey gpp addr TYPE_10 bits) := by
  simp [addrBlock]

theorem decodeFold_typeRun_other (qs0 : Queues) (addr t : Nat)
    (ht : t = TYPE_90 ∨ t = TYPE_10) (o : Option (List Nat)) (k : Nat × Nat)
    (hk : k ≠ (addr, t)) :
    qlookup (List.foldl payloadStep qs0
      (match o with
        | none => []
        | some bits => payloadsForKey 4 addr t bits)) k = qlookup qs0 k := by
  cases o with
  | none => rfl
  | some bits => exact decodeFold_payloadsForKey_lookup_other addr t ht bits k hk qs0

/-- Decoding one address's payload block leaves every key of a different
address untouched. -/
theorem decodeFold_addrBlock_other (qs qs0 : Queues) (addr' a t : Nat)
    (hne : addr' ≠ a) :
    qlookup (List.foldl payloadStep qs0 (addrBlock qs 4 addr')) (a, t) =
      qlookup qs0 (a, t) := by
  rw [addrBlock_eq, List.foldl_append]
  rw [decodeFold_typeRun_other _ addr' TYPE_10 (Or.inr rfl) _ _
    (by intro h; exact hne (congrArg Prod.fst h).symm)]
  rw [decodeFold_typeRun_other _ addr' TYPE_90 (Or.inl rfl) _ _
    (by intro h; exact hne (congrArg Prod.fst h).symm)]

/-- Decoding an address's own payload block appends that key's bits (zero
padded to a multiple of 40) to the accumulated queue. -/
theorem decodeFold_addrBlock_self (qs qs0 : Queues) (a t : Nat)
    (ht : t = TYPE_90 ∨ t = TYPE_10) (bits : List Nat)
    (hlk : qlookup qs (a, t) = some bits) (hne : bits ≠ [])
    (hb : ∀ b ∈ bits, b < 2) :
    qlookup (List.foldl payloadStep qs0 (addrBlock qs 4 a)) (a, t) =
      some ((qlookup qs0 (a, t)).getD [] ++
        (bits ++ List.replicate ((40 - bits.length % 40) % 40) 0)) := by
  rw [addrBlock_eq, List.foldl_append]
  rcases ht with rfl | rfl
  · rw [decodeFold_typeRun_other _ a TYPE_10 (Or.inr rfl) _ _
      (by
        intro h
        have h2 : TYPE_90 = TYPE_10 := congrArg Prod.snd h
        exact absurd h2 (by decide))]
    rw [hlk, decodeFold_payloadsForKey a TYPE_90 (Or.inl rfl) bits hne hb qs0,
      qlookup_qappend_self]
  · rw [hlk, decodeFold_payloadsForKey a TYPE_10 (Or.inr rfl) bits hne hb _]
    rw [qlookup_qappend_self]
    rw [decodeFold_typeRun_other qs0 a TYPE_90 (Or.inl rfl) _ _
      (by
        intro h
        have h2 : TYPE_10 = TYPE_90 := congrArg Prod.snd h
        exact absurd h2 (by decide))]

theorem decodeFold_addrList (qs : Queues) (a t : Nat)
    (ht : t = TYPE_90 ∨ t = TYPE_10) (bits : List Nat)
    (hlk : qlookup qs (a, t) = some bits) (hne : bits ≠ [])
    (hb : ∀ b ∈ bits, b < 2) :
    ∀ (addrs : List Nat) (qs0 : Queues), addrs.Nodup →
    ((a ∉ addrs →
      qlookup (List.foldl payloadStep qs0 (addrs.flatMap (addrBlock qs 4))) (a, t) =
        qlookup qs0 (a, t)) ∧
    (a ∈ addrs →
      qlookup (List.foldl payloadStep qs0 (addrs.flatMap (addrBlock qs 4))) (a, t) =
        some ((qlookup qs0 (a, t)).getD [] ++
          (bits ++ List.replicate ((40 - bits.length % 40) % 40) 0)))) := by
  intro addrs
  induction addrs with
  | nil =>
      intro qs0 _
      exact ⟨fun _ => rfl, fun h => absurd h (by simp)⟩
  | cons a' addrs ih =>
      intro qs0 hnd
      have hfm : (a' :: addrs).flatMap (addrBlock qs 4) =
          addrBlock qs 4 a' ++ addrs.flatMap (addrBlock qs 4) := by
        simp
      rw [hfm, List.foldl_append]
      obtain ⟨hnotin, hnd'⟩ := List.nodup_cons.mp hnd
      constructor
      · intro hmem
        have ha' : a' ≠ a := fun h => hmem (h ▸ List.mem_cons_self _ _)
        have hmem' : a ∉ addrs := fun h => hmem (List.mem_cons_of_mem _ h)
        rw [(ih _ hnd').1 hmem',
          decodeFold_addrBlock_other qs qs0 a' a t ha']
      · intro hmem
        rcases List.mem_cons.mp hmem with rfl | hmem'
        · rw [(ih _ hnd').1 hnotin,
            decodeFold_addrBlock_self qs qs0 a t ht bits hlk hne hb]
        · have ha' : a' ≠ a := fun h => hnotin (h ▸ hmem')
          rw [(ih _ hnd').2 hmem',
            decodeFold_addrBlock_other qs qs0 a' a t ha']

/-- Decode-of-encode at the queue level: running the emitted payloads back
through the payload decoder recovers each queue, zero padded to a multiple
of 40. -/
theorem decode_build (qs : Queues) (a t : Nat)
    (ht : t = TYPE_90 ∨ t = TYPE_10) (bits : List Nat)
    (hlk : qlookup qs (a, t) = some bits) (hne : bits ≠ [])
    (hb : ∀ b ∈ bits, b < 2) :
    qlookup (build_addr_type_bit_queues_from_payloads
        (build_column_payloads qs 4)) (a, t) =
      some (bits ++ List.replicate ((40 - bits.length % 40) % 40) 0) := by
  show qlookup (List.foldl payloadStep []
    ((used_addrs qs).flatMap (addrBlock qs 4))) (a, t) = _
  rw [(decodeFold_addrList qs a t ht bits hlk hne hb (used_addrs qs) []
    (used_addrs_nodup qs)).2 (mem_used_addrs qs a t bits hlk)]
  rfl

/-! ## Claim C1: the encode–decode round trip -/

theorem seg_row_col_bounds (seg : Segment) (hseg : seg ∈ SEGMENTS) :
    seg.row_end ≤ MATRIX_ROWS ∧ seg.col_end ≤ MATRIX_COLS := by
  rcases mem_SEGMENTS_cases seg hseg with rfl | rfl | rfl | rfl <;> decide

theorem panel_coverage (r c : Nat) (hr : r < MATRIX_ROWS)
    (hc : c < MATRIX_COLS) :
    ∃ seg, seg ∈ SEGMENTS ∧ (r, c) ∈ scanCells seg := by
  simp only [MATRIX_ROWS, MATRIX_COLS] at hr hc
  rcases Nat.lt_or_ge r 13 with hr13 | hr13 <;>
    rcases Nat.lt_or_ge c 24 with hc24 | hc24
  · exact ⟨segTL, by simp [SEGMENTS], (mem_scanCells segTL (r, c)).mpr
      (by simp [segTL]; omega)⟩
  · exact ⟨segTR, by simp [SEGMENTS], (mem_scanCells segTR (r, c)).mpr
      (by simp [segTR]; omega)⟩
  · exact ⟨segBL, by simp [SEGMENTS], (mem_scanCells segBL (r, c)).mpr
      (by simp [segBL]; omega)⟩
  · exact ⟨segBR, by simp [SEGMENTS], (mem_scanCells segBR (r, c)).mpr
      (by simp [segBR]; omega)⟩

theorem typeOf_none_hole_pos (hole : Bool) (seg : Segment)
    (hseg : seg ∈ SEGMENTS) (rc : Nat × Nat) (hm : rc ∈ scanCells seg)
    (ht : typeOf hole seg rc = none) :
    hole = true ∧ rc.1 = seg.row_start + 12 ∧ rc.2 = seg.col_start + 23 := by
  rw [mem_scanCells] at hm
  unfold typeOf logical_type_for_segment_pixel at ht
  split_ifs at ht with h
  · obtain ⟨h1, h2, h3⟩ := h
    refine ⟨h1, ?_, ?_⟩ <;>
      rcases mem_SEGMENTS_cases seg hseg with rfl | rfl | rfl | rfl <;>
      simp [segTL, segTR, segBL, segBR] at hm h2 h3 ⊢ <;> omega

theorem segmentBits_entries (hole : Bool) (m : Mat) (seg : Segment)
    (hseg : seg ∈ SEGMENTS) (t : Nat)
    (hm : ∀ r c, r < MATRIX_ROWS → c < MATRIX_COLS → m r c < 2) :
    ∀ b ∈ segmentBits hole m seg t, b < 2 := by
  intro b hb
  obtain ⟨rc, hrc, rfl⟩ := List.mem_map.mp hb
  have hcell : rc ∈ scanCells seg := mem_scanCells_of_typedCells hole seg t rc hrc
  rw [mem_scanCells] at hcell
  obtain ⟨hre, hce⟩ := seg_row_col_bounds seg hseg
  exact hm rc.1 rc.2 (by omega) (by omega)

theorem roundtrip_typed (hole : Bool) (m : Mat)
    (hbits : ∀ r c, r < MATRIX_ROWS → c < MATRIX_COLS → m r c < 2)
    (seg : Segment) (hseg : seg ∈ SEGMENTS) (t : Nat)
    (htv : t = TYPE_90 ∨ t = TYPE_10) (r c : Nat)
    (ht : typeOf hole seg (r, c) = some t)
    (hcell : (r, c) ∈ scanCells seg) :
    fill_matrix_from_segments hole
      (build_addr_type_bit_queues_from_payloads
        (build_column_payloads (build_bit_queues_from_matrix hole m) 4)) r c
    = m r c := by
  have hmem : (r, c) ∈ typedCells hole seg t :=
    List.mem_filter.mpr ⟨hcell, by simp [ht]⟩
  obtain ⟨i, hi, hgetI⟩ := List.mem_iff_getElem.mp hmem
  have hiD : (typedCells hole seg t).getD i (0, 0) = (r, c) := by
    rw [List.getD_eq_getElem _ _ hi, hgetI]
  have hlk := encode_lookup hole m seg hseg t htv
  have hne := segmentBits_ne_nil hole m seg hseg t htv
  have hb := segmentBits_entries hole m seg hseg t hbits
  have hdec : qlookup (build_addr_type_bit_queues_from_payloads
      (build_column_payloads (build_bit_queues_from_matrix hole m) 4))
      (queueKey seg t) =
      some (segmentBits hole m seg t ++
        List.replicate ((40 - (segmentBits hole m seg t).length % 40) % 40) 0) :=
    decode_build (build_bit_queues_from_matrix hole m) (queueKey seg t).1 t htv
      (segmentBits hole m seg t) hlk hne hb
  have hslen : i < (segmentBits hole m seg t).length := by
    simpa [segmentBits] using hi
  have hfill := fill_lookup_global hole
    (build_addr_type_bit_queues_from_payloads
      (build_column_payloads (build_bit_queues_from_matrix hole m) 4))
    seg hseg t htv i hi
  rw [hiD] at hfill
  have hstep2 : ((qlookup (build_addr_type_bit_queues_from_payloads
      (build_column_payloads (build_bit_queues_from_matrix hole m) 4))
      (queueKey seg t)).getD []).getD i 0
      = (segmentBits hole m seg t).getD i 0 := by
    rw [hdec]
    exact List.getD_append _ _ 0 i hslen
  have hstep3 : (segmentBits hole m seg t).getD i 0 = m r c := by
    unfold segmentBits
    rw [List.getD_eq_getElem _ _ (by simpa [segmentBits] using hslen),
      List.getElem_map, hgetI]
  exact Eq.trans (Eq.trans hfill hstep2) hstep3

/-- C1: for every 26×48 matrix with entries in {0, 1} whose hole cells
(when the hole pixel is enabled) are 0, building bit queues with
`build_bit_queues_from_matrix`, packing them with `build_column_payloads`,
rebuilding queues with `build_addr_type_bit_queues_from_payloads` and
filling a matrix with `fill_matrix_from_segments` restores the matrix. -/
theorem claim_C1 (hole : Bool) (m : Mat)
    (hbits : ∀ r c, r < MATRIX_ROWS → c < MATRIX_COLS → m r c < 2)
    (hhole : hole = true →
      m 12 23 = 0 ∧ m 12 47 = 0 ∧ m 25 23 = 0 ∧ m 25 47 = 0)
    (r c : Nat) (hr : r < MATRIX_ROWS) (hc : c < MATRIX_COLS) :
    fill_matrix_from_segments hole
      (build_addr_type_bit_queues_from_payloads
        (build_column_payloads (build_bit_queues_from_matrix hole m) 4)) r c
    = m r c := by
  obtain ⟨seg, hseg, hcell⟩ := panel_coverage r c hr hc
  rcases typeOf_cases hole seg (r, c) with ht | ht | ht
  · -- hole cell: filled with 0, and 0 in the matrix by hypothesis
    have h0 := fill_hole_global hole
      (build_addr_type_bit_queues_from_payloads
        (build_column_payloads (build_bit_queues_from_matrix hole m) 4))
      seg hseg (r, c) hcell ht
    rw [show fill_matrix_from_segments hole
        (build_addr_type_bit_queues_from_payloads
          (build_column_payloads (build_bit_queues_from_matrix hole m) 4)) r c =
        fill_matrix_from_segments hole
        (build_addr_type_bit_queues_from_payloads
          (build_column_payloads (build_bit_queues_from_matrix hole m) 4))
          (r, c).1 (r, c).2 from rfl, h0]
    obtain ⟨h1, h2, h3⟩ := typeOf_none_hole_pos hole seg hseg (r, c) hcell ht
    obtain ⟨m1, m2, m3, m4⟩ := hhole h1
    rcases mem_SEGMENTS_cases seg hseg with rfl | rfl | rfl | rfl <;>
      simp [segTL, segTR, segBL, segBR] at h2 h3 <;> subst h2 <;> subst h3 <;>
      omega
  · exact roundtrip_typed hole m hbits seg hseg TYPE_90 (Or.inl rfl) r c ht hcell
  · exact roundtrip_typed hole m hbits seg hseg TYPE_10 (Or.inr rfl) r c ht hcell

/-- Witness for C1: the diagonal matrix round-trips at a sample cell with
the hole feature enabled. -/
theorem claim_C1_witness :
    fill_matrix_from_segments true
      (build_addr_type_bit_queues_from_payloads
        (build_column_payloads (build_bit_queues_from_matrix true
          (fun r c => if r = c then 1 else 0)) 4)) 5 5
    = (fun r c : Nat => if r = c then 1 else 0) 5 5 :=
  claim_C1 true (fun r c => if r = c then 1 else 0)
    (by
      intro r c _ _
      by_cases h : r = c <;> simp [h])
    (by intro _; refine ⟨?_, ?_, ?_, ?_⟩ <;> decide)
    5 5 (by decide) (by decide)

/-! ## Claim C8: the fill is total and defaults missing bits to 0 -/

/-- C8: `fill_matrix_from_segments` is total on every queue map: a cell of
type `t` whose queue has run out (or is missing) is written 0, and hole
cells are always written 0. -/
theorem claim_C8 (hole : Bool) (qs : Queues) (seg : Segment)
    (hseg : seg ∈ SEGMENTS) :
    (∀ t, (t = TYPE_90 ∨ t = TYPE_10) →
      ∀ i, i < (typedCells hole seg t).length →
      ((qlookup qs (queueKey seg t)).getD []).length ≤ i →
      fill_matrix_from_segments hole qs
        ((typedCells hole seg t).getD i (0, 0)).1
        ((typedCells hole seg t).getD i (0, 0)).2 = 0) ∧
    (∀ rc ∈ scanCells seg, typeOf hole seg rc = none →
      fill_matrix_from_segments hole qs rc.1 rc.2 = 0) := by
  constructor
  · intro t ht i hi hshort
    rw [fill_lookup_global hole qs seg hseg t ht i hi]
    exact List.getD_eq_default _ _ hshort
  · intro rc hm ht
    exact fill_hole_global hole qs seg hseg rc hm ht

/-- Witness for C8: with an empty queue dict the first 0x90 cell of the
top-left segment decodes to 0. -/
theorem claim_C8_witness :
    fill_matrix_from_segments false []
      ((typedCells false segTL TYPE_90).getD 0 (0, 0)).1
      ((typedCells false segTL TYPE_90).getD 0 (0, 0)).2 = 0 :=
  (claim_C8 false [] segTL (by simp [SEGMENTS])).1 TYPE_90 (Or.inl rfl) 0
    (by decide) (by decide)

/-! ## Claim C6: queue count and bit accounting -/

/-- Insert a key at the end of the key list if it is not yet present
(the effect of `setdefault` on the dict's key order). -/
def keysInsert (ks : List (Nat × Nat)) (k : Nat × Nat) : List (Nat × Nat) :=
  if k ∈ ks then ks else ks ++ [k]

theorem qkeys_encStep_fold (hole : Bool) (m : Mat) (seg : Segment) :
    ∀ (cells : List (Nat × Nat)) (qs : Queues),
    qkeys (cells.foldl (encStep hole m seg) qs) =
      (cells.filterMap (keyOf hole seg)).foldl keysInsert (qkeys qs) := by
  intro cells
  induction cells with
  | nil => intro qs; rfl
  | cons c cells ih =>
      intro qs
      show qkeys (cells.foldl (encStep hole m seg) (encStep hole m seg qs c)) = _
      cases hk : typeOf hole seg c with
      | none =>
          have h1 : encStep hole m seg qs c = qs := by simp [encStep, hk]
          have h2 : (c :: cells).filterMap (keyOf hole seg) =
              cells.filterMap (keyOf hole seg) := by
            rw [List.filterMap_cons]
            simp [keyOf, hk]
          rw [h1, h2, ih]
      | some t =>
          have h1 : encStep hole m seg qs c =
              qappend qs (queueKey seg t) [m c.1 c.2] := by simp [encStep, hk]
          have h2 : (c :: cells).filterMap (keyOf hole seg) =
              queueKey seg t :: cells.filterMap (keyOf hole seg) := by
            rw [List.filterMap_cons]
            simp [keyOf, hk]
          rw [h1, h2, ih, List.foldl_cons]
          congr 1
          rw [qkeys_qappend]
          rfl

theorem qlookup_some_mem_qkeys (qs : Queues) (k : Nat × Nat) (v : List Nat)
    (h : qlookup qs k = some v) : k ∈ qkeys qs := by
  unfold qlookup at h
  cases hf : List.find? (fun e => e.1 = k) qs with
  | none => rw [hf] at h; simp at h
  | some e =>
      have he : e ∈ qs := List.mem_of_find?_eq_some hf
      have hp := List.find?_some hf
      have hk : e.1 = k := of_decide_eq_true hp
      exact hk ▸ List.mem_map.mpr ⟨e, he, rfl⟩

theorem qkeys_qappend_subset (qs : Queues) (k : Nat × Nat) (bs : List Nat) :
    ∀ k', k' ∈ qkeys (qappend qs k bs) → k' ∈ qkeys qs ++ [k] := by
  intro k' hk'
  rw [qkeys_qappend] at hk'
  split at hk'
  · exact List.mem_append_left _ hk'
  · exact hk'

theorem qkeys_encFold_subset (hole : Bool) (m : Mat) (seg : Segment) :
    ∀ (cells : List (Nat × Nat)) (qs : Queues) (k : Nat × Nat),
    k ∈ qkeys (cells.foldl (encStep hole m seg) qs) →
    k ∈ qkeys qs ++ [queueKey seg TYPE_90, queueKey seg TYPE_10] := by
  intro cells
  induction cells with
  | nil => intro qs k hk; exact List.mem_append_left _ hk
  | cons c cells ih =>
      intro qs k hk
      have hk2 := ih (encStep hole m seg qs c) k hk
      rcases List.mem_append.mp hk2 with hk3 | hk3
      · cases hc : typeOf hole seg c with
        | none =>
            rw [show encStep hole m seg qs c = qs from by simp [encStep, hc]] at hk3
            exact List.mem_append_left _ hk3
        | some t =>
            rw [show encStep hole m seg qs c =
                qappend qs (queueKey seg t) [m c.1 c.2] from by
              simp [encStep, hc]] at hk3
            rcases List.mem_append.mp (qkeys_qappend_subset qs _ _ k hk3) with h4 | h4
            · exact List.mem_append_left _ h4
            · rcases typeOf_cases hole seg c with hh | hh | hh
              · rw [hh] at hc; cases hc
              · rw [hh] at hc
                obtain rfl : t = TYPE_90 := by injection hc with h5; exact h5.symm
                exact List.mem_append_right _ (by
                  rcases List.mem_singleton.mp h4 with rfl
                  exact List.mem_cons_self _ _)
              · rw [hh] at hc
                obtain rfl : t = TYPE_10 := by injection hc with h5; exact h5.symm
                exact List.mem_append_right _ (by
                  rcases List.mem_singleton.mp h4 with rfl
                  simp)
      · exact List.mem_append_right _ hk3

theorem qkeys_qappend_nodup (qs : Queues) (k : Nat × Nat) (bs : List Nat)
    (h : (qkeys qs).Nodup) : (qkeys (qappend qs k bs)).Nodup := by
  rw [qkeys_qappend]
  split
  · exact h
  · simp [List.nodup_append, h]
    assumption

theorem qkeys_encFold_nodup (hole : Bool) (m : Mat) (seg : Segment) :
    ∀ (cells : List (Nat × Nat)) (qs : Queues),
    (qkeys qs).Nodup → (qkeys (cells.foldl (encStep hole m seg) qs)).Nodup := by
  intro cells
  induction cells with
  | nil => intro qs h; exact h
  | cons c cells ih =>
      intro qs h
      apply ih
      cases hc : typeOf hole seg c with
      | none => rw [show encStep hole m seg qs c = qs from by simp [encStep, hc]]; exact h
      | some t =>
          rw [show encStep hole m seg qs c =
              qappend qs (queueKey seg t) [m c.1 c.2] from by simp [encStep, hc]]
          exact qkeys_qappend_nodup qs _ _ h

/-- The canonical eight queue keys of the panel. -/
def allKeys : List (Nat × Nat) :=
  [(7, 0x90), (3, 0x10), (8, 0x90), (4, 0x10),
    (6, 0x90), (2, 0x10), (5, 0x90), (1, 0x10)]

theorem qkeys_build_nodup (hole : Bool) (m : Mat) :
    (qkeys (build_bit_queues_from_matrix hole m)).Nodup := by
  have hb : build_bit_queues_from_matrix hole m =
      ((scanCells segBR).foldl (encStep hole m segBR)
        ((scanCells segBL).foldl (encStep hole m segBL)
          ((scanCells segTR).foldl (encStep hole m segTR)
            ((scanCells segTL).foldl (encStep hole m segTL) [])))) := rfl
  rw [hb]
  exact qkeys_encFold_nodup hole m segBR _ _
    (qkeys_encFold_nodup hole m segBL _ _
      (qkeys_encFold_nodup hole m segTR _ _
        (qkeys_encFold_nodup hole m segTL _ _ (by simp [qkeys]))))

theorem qkeys_build_perm (hole : Bool) (m : Mat) :
    (qkeys (build_bit_queues_from_matrix hole m)).Perm allKeys := by
  refine (List.perm_ext_iff_of_nodup (qkeys_build_nodup hole m) (by decide)).mpr ?_
  intro k
  constructor
  · intro hk
    have hb : build_bit_queues_from_matrix hole m =
        ((scanCells segBR).foldl (encStep hole m segBR)
          ((scanCells segBL).foldl (encStep hole m segBL)
            ((scanCells segTR).foldl (encStep hole m segTR)
              ((scanCells segTL).foldl (encStep hole m segTL) [])))) := rfl
    rw [hb] at hk
    have h1 := qkeys_encFold_subset hole m segBR _ _ k hk
    rcases List.mem_append.mp h1 with h2 | h2
    · have h3 := qkeys_encFold_subset hole m segBL _ _ k h2
      rcases List.mem_append.mp h3 with h4 | h4
      · have h5 := qkeys_encFold_subset hole m segTR _ _ k h4
        rcases List.mem_append.mp h5 with h6 | h6
        · have h7 := qkeys_encFold_subset hole m segTL _ _ k h6
          rcases List.mem_append.mp h7 with h8 | h8
          · simp [qkeys] at h8
          · rcases List.mem_cons.mp h8 with rfl | h9
            · decide
            · rcases List.mem_singleton.mp h9 with rfl
              decide
        · rcases List.mem_cons.mp h6 with rfl | h9
          · decide
          · rcases List.mem_singleton.mp h9 with rfl
            decide
      · rcases List.mem_cons.mp h4 with rfl | h9
        · decide
        · rcases List.mem_singleton.mp h9 with rfl
          decide
    · rcases List.mem_cons.mp h2 with rfl | h9
      · decide
      · rcases List.mem_singleton.mp h9 with rfl
        decide
  · intro hk
    have hmem : ∀ seg, seg ∈ SEGMENTS → ∀ t, (t = TYPE_90 ∨ t = TYPE_10) →
        queueKey seg t ∈ qkeys (build_bit_queues_from_matrix hole m) :=
      fun seg hseg t ht => qlookup_some_mem_qkeys _ _ _
        (encode_lookup hole m seg hseg t ht)
    rcases List.mem_cons.mp hk with rfl | hk
    · exact hmem segTL (by simp [SEGMENTS]) TYPE_90 (Or.inl rfl)
    rcases List.mem_cons.mp hk with rfl | hk
    · exact hmem segTL (by simp [SEGMENTS]) TYPE_10 (Or.inr rfl)
    rcases List.mem_cons.mp hk with rfl | hk
    · exact hmem segTR (by simp [SEGMENTS]) TYPE_90 (Or.inl rfl)
    rcases List.mem_cons.mp hk with rfl | hk
    · exact hmem segTR (by simp [SEGMENTS]) TYPE_10 (Or.inr rfl)
    rcases List.mem_cons.mp hk with rfl | hk
    · exact hmem segBL (by simp [SEGMENTS]) TYPE_90 (Or.inl rfl)
    rcases List.mem_cons.mp hk with rfl | hk
    · exact hmem segBL (by simp [SEGMENTS]) TYPE_10 (Or.inr rfl)
    rcases List.mem_cons.mp hk with rfl | hk
    · exact hmem segBR (by simp [SEGMENTS]) TYPE_90 (Or.inl rfl)
    rcases List.mem_singleton.mp hk with rfl
    exact hmem segBR (by simp [SEGMENTS]) TYPE_10 (Or.inr rfl)

/-- The total number of bits stored across all queues of a dict. -/
def totalBits (qs : Queues) : Nat :=
  (qs.map (fun e => e.2.length)).sum

theorem totalBits_eq_keys : ∀ (qs : Queues), (qkeys qs).Nodup →
    totalBits qs =
      ((qkeys qs).map (fun k => ((qlookup qs k).getD []).length)).sum := by
  intro qs
  induction qs with
  | nil => intro _; rfl
  | cons e rest ih =>
      intro hnd
      obtain ⟨k, v⟩ := e
      have hk : k ∉ qkeys rest := (List.nodup_cons.mp hnd).1
      have hnd' : (qkeys rest).Nodup := (List.nodup_cons.mp hnd).2
      show v.length + totalBits rest = _
      have hq : qkeys ((k, v) :: rest) = k :: qkeys rest := rfl
      rw [hq, List.map_cons, List.sum_cons]
      congr 1
      · rw [qlookup_cons, if_pos rfl]
        rfl
      · rw [ih hnd']
        apply congrArg
        apply List.map_congr_left
        intro k' hk'
        rw [qlookup_cons, if_neg (fun h => hk (by rw [h]; exact hk'))]

theorem totalBits_build (hole : Bool) (m : Mat) :
    totalBits (build_bit_queues_from_matrix hole m) =
      if hole = true then 1244 else 1248 := by
  rw [totalBits_eq_keys _ (qkeys_build_nodup hole m)]
  rw [((qkeys_build_perm hole m).map
    (fun k => ((qlookup (build_bit_queues_from_matrix hole m) k).getD []).length)).sum_eq]
  have hTL90 : qlookup (build_bit_queues_from_matrix hole m) (7, 0x90) =
      some (segmentBits hole m segTL TYPE_90) :=
    encode_lookup hole m segTL (by simp [SEGMENTS]) TYPE_90 (Or.inl rfl)
  have hTL10 : qlookup (build_bit_queues_from_matrix hole m) (3, 0x10) =
      some (segmentBits hole m segTL TYPE_10) :=
    encode_lookup hole m segTL (by simp [SEGMENTS]) TYPE_10 (Or.inr rfl)
  have hTR90 : qlookup (build_bit_queues_from_matrix hole m) (8, 0x90) =
      some (segmentBits hole m segTR TYPE_90) :=
    encode_lookup hole m segTR (by simp [SEGMENTS]) TYPE_90 (Or.inl rfl)
  have hTR10 : qlookup (build_bit_queues_from_matrix hole m) (4, 0x10) =
      some (segmentBits hole m segTR TYPE_10) :=
    encode_lookup hole m segTR (by simp [SEGMENTS]) TYPE_10 (Or.inr rfl)
  have hBL90 : qlookup (build_bit_queues_from_matrix hole m) (6, 0x90) =
      some (segmentBits hole m segBL TYPE_90) :=
    encode_lookup hole m segBL (by simp [SEGMENTS]) TYPE_90 (Or.inl rfl)
  have hBL10 : qlookup (build_bit_queues_from_matrix hole m) (2, 0x10) =
      some (segmentBits hole m segBL TYPE_10) :=
    encode_lookup hole m segBL (by simp [SEGMENTS]) TYPE_10 (Or.inr rfl)
  have hBR90 : qlookup (build_bit_queues_from_matrix hole m) (5, 0x90) =
      some (segmentBits hole m segBR TYPE_90) :=
    encode_lookup hole m segBR (by simp [SEGMENTS]) TYPE_90 (Or.inl rfl)
  have hBR10 : qlookup (build_bit_queues_from_matrix hole m) (1, 0x10) =
      some (segmentBits hole m segBR TYPE_10) :=
    encode_lookup hole m segBR (by simp [SEGMENTS]) TYPE_10 (Or.inr rfl)
  show ((allKeys.map
    (fun k => ((qlookup (build_bit_queues_from_matrix hole m) k).getD []).length))).sum = _
  rw [show allKeys = [(7, 0x90), (3, 0x10), (8, 0x90), (4, 0x10),
    (6, 0x90), (2, 0x10), (5, 0x90), (1, 0x10)] from rfl]
  simp only [List.map_cons, List.map_nil, List.sum_cons, List.sum_nil,
    hTL90, hTL10, hTR90, hTR10, hBL90, hBL10, hBR90, hBR10,
    Option.getD_some, segmentBits, List.length_map]
  cases hole <;> decide

/-- C6: encoding any 26×48 matrix yields exactly eight queues, each queue's
length is the count of cells of its type in its segment (156 per type with
the hole disabled), and the total bit count is 1244 with the hole pixel
enabled and 1248 with it disabled. -/
theorem claim_C6 (hole : Bool) (m : Mat) :
    (qkeys (build_bit_queues_from_matrix hole m)).length = 8 ∧
    (∀ seg ∈ SEGMENTS, ∀ t, (t = TYPE_90 ∨ t = TYPE_10) →
      ∃ q, qlookup (build_bit_queues_from_matrix hole m) (queueKey seg t) =
          some q ∧
        q.length = (typedCells hole seg t).length ∧
        (hole = false → q.length = 156)) ∧
    totalBits (build_bit_queues_from_matrix hole m) =
      if hole = true then 1244 else 1248 := by
  refine ⟨?_, ?_, totalBits_build hole m⟩
  · exact (qkeys_build_perm hole m).length_eq
  · intro seg hseg t ht
    refine ⟨segmentBits hole m seg t, encode_lookup hole m seg hseg t ht, ?_, ?_⟩
    · simp [segmentBits]
    · intro hh
      subst hh
      rw [show (segmentBits false m seg t).length = (typedCells false seg t).length
        from by simp [segmentBits]]
      rcases mem_SEGMENTS_cases seg hseg with rfl | rfl | rfl | rfl <;>
        rcases ht with rfl | rfl <;> decide

/-- Witness for C6 at the all-zero matrix with the hole enabled. -/
theorem claim_C6_witness :
    (∃ q, qlookup (build_bit_queues_from_matrix true (fun _ _ => 0))
        (queueKey segTL TYPE_90) = some q ∧
      q.length = (typedCells true segTL TYPE_90).length ∧
      (true = false → q.length = 156)) ∧
    totalBits (build_bit_queues_from_matrix true (fun _ _ => 0)) =
      if true = true then 1244 else 1248 :=
  ⟨(claim_C6 true (fun _ _ => 0)).2.1 segTL (by simp [SEGMENTS]) TYPE_90
      (Or.inl rfl),
    (claim_C6 true (fun _ _ => 0)).2.2⟩

/-! ## Claim C2: `calculate_bit_index` versus the encoder's scan order -/

/-- The all-zero matrix with a single pixel set. -/
def deltaMatrix (r0 c0 : Nat) : Mat :=
  fun r c => if r = r0 ∧ c = c0 then 1 else 0

/-- C2 fails on the code: for the top-left segment's pixel (seg_row 0,
seg_col 1), the encoder places the pixel's bit at position 1 of the
(7, 0x90) queue, but `calculate_bit_index` (which scans with the column as
the outer loop) returns 7, and `get_pixel_info` reports that 7. -/
theorem claim_C2_code_divergence :
    ∃ q, qlookup (build_bit_queues_from_matrix false (deltaMatrix 0 1))
        (7, TYPE_90) = some q ∧
      q.indexOf 1 = 1 ∧
      calculate_bit_index false segTL 0 1 = 7 ∧
      get_pixel_info false "top-left" 0 1 =
        some ⟨some TYPE_90, some 7, 7⟩ := by
  refine ⟨segmentBits false (deltaMatrix 0 1) segTL TYPE_90,
    encode_lookup false (deltaMatrix 0 1) segTL (by simp [SEGMENTS]) TYPE_90
      (Or.inl rfl), ?_, ?_, ?_⟩
  · decide
  · decide
  · decide

/-! ## Claim C7: soft recovery in the payload and frame decoders -/

theorem parse_body_invalid (addr : Nat) (qs : Queues) (bad : Nat)
    (junk : List Nat) (hbad : ¬(bad = TYPE_90 ∨ bad = TYPE_10)) :
    parse_body addr qs (bad :: junk) = qs := by
  rcases junk with _ | ⟨d0, _ | ⟨d1, _ | ⟨d2, _ | ⟨d3, _ | ⟨d4, rest⟩⟩⟩⟩⟩ <;>
    simp [parse_body, hbad]

theorem parse_body_short (addr : Nat) (qs : Queues) (tail : List Nat)
    (h : tail.length < 6) : parse_body addr qs tail = qs := by
  rcases tail with _ | ⟨a, _ | ⟨b, _ | ⟨c, _ | ⟨d, _ | ⟨e, _ | ⟨f, rest⟩⟩⟩⟩⟩⟩ <;>
    first
      | rfl
      | (simp only [List.length_cons] at h; omega)

/-- C7: an unknown group header or a short tail stops parsing of that one
payload, keeping the groups already accepted; the remaining payloads of the
batch, and the remaining frames of a frame batch, are processed from the
accumulated queues unaffected. -/
theorem claim_C7 :
    (∀ (addr : Nat) (qs : Queues) (gs : List (List Nat)) (bad : Nat)
      (junk : List Nat),
      (∀ g ∈ gs, ∃ t d, g = t :: d ∧ (t = TYPE_90 ∨ t = TYPE_10) ∧ d.length = 5) →
      ¬(bad = TYPE_90 ∨ bad = TYPE_10) →
      parse_body addr qs (gs.flatten ++ bad :: junk) =
        parse_body addr qs gs.flatten) ∧
    (∀ (addr : Nat) (qs : Queues) (gs : List (List Nat)) (tail : List Nat),
      (∀ g ∈ gs, ∃ t d, g = t :: d ∧ (t = TYPE_90 ∨ t = TYPE_10) ∧ d.length = 5) →
      tail.length < 6 →
      parse_body addr qs (gs.flatten ++ tail) = parse_body addr qs gs.flatten) ∧
    (∀ (p : List Nat) (ps : List (List Nat)),
      build_addr_type_bit_queues_from_payloads (p :: ps) =
        List.foldl payloadStep (payloadStep [] p) ps) ∧
    (∀ (addr ck : Nat) (qs : Queues) (body : List Nat) (fs : List (List Nat)),
      List.foldl frameStep qs
        (([0x7E, 0xA5, addr] ++ body ++ [ck, 0x7E]) :: fs) =
        List.foldl frameStep (parse_body addr qs body) fs) := by
  have hgen : ∀ (addr : Nat) (gs : List (List Nat)) (qs : Queues)
      (extra : List Nat),
      (∀ g ∈ gs, ∃ t d, g = t :: d ∧ (t = TYPE_90 ∨ t = TYPE_10) ∧ d.length = 5) →
      (∀ qs', parse_body addr qs' extra = qs') →
      parse_body addr qs (gs.flatten ++ extra) = parse_body addr qs gs.flatten := by
    intro addr gs
    induction gs with
    | nil =>
        intro qs extra _ hstop
        simpa using hstop qs
    | cons g gs ih =>
        intro qs extra hshape hstop
        obtain ⟨t, d, rfl, htv, hd5⟩ := hshape g (List.mem_cons_self _ _)
        rcases d with _ | ⟨d0, _ | ⟨d1, _ | ⟨d2, _ | ⟨d3, _ | ⟨d4, _ | ⟨d5, d⟩⟩⟩⟩⟩⟩ <;>
          simp only [List.length_nil, List.length_cons] at hd5 <;> try omega
        show parse_body addr qs
          (t :: d0 :: d1 :: d2 :: d3 :: d4 :: (gs.flatten ++ extra)) = _
        rw [show (([t, d0, d1, d2, d3, d4] : List Nat) :: gs).flatten =
          t :: d0 :: d1 :: d2 :: d3 :: d4 :: gs.flatten from rfl]
        rw [parse_body_group addr qs t d0 d1 d2 d3 d4 _ htv,
          parse_body_group addr qs t d0 d1 d2 d3 d4 _ htv]
        exact ih _ extra (fun g hm => hshape g (List.mem_cons_of_mem _ hm)) hstop
  refine ⟨?_, ?_, ?_, ?_⟩
  · intro addr qs gs bad junk hshape hbad
    rw [hgen addr gs qs (bad :: junk) hshape
      (fun qs' => parse_body_invalid addr qs' bad junk hbad)]
  · intro addr qs gs tail hshape hlen
    rw [hgen addr gs qs tail hshape
      (fun qs' => parse_body_short addr qs' tail hlen)]
  · intro p ps
    rfl
  · intro addr ck qs body fs
    have hstep : frameStep qs ([0x7E, 0xA5, addr] ++ body ++ [ck, 0x7E]) =
        parse_body addr qs body := by
      unfold frameStep frame_body
      have h2 : ([0x7E, 0xA5, addr] ++ body ++ [ck, 0x7E]).getD 2 0 = addr := rfl
      have h3 : (([0x7E, 0xA5, addr] ++ body ++ [ck, 0x7E]).drop 3).take
          (([0x7E, 0xA5, addr] ++ body ++ [ck, 0x7E]).length - 5) = body := by
        show ((body ++ [ck, 0x7E]).take
          (([0x7E, 0xA5, addr] ++ body ++ [ck, 0x7E]).length - 5)) = body
        rw [show ([0x7E, 0xA5, addr] ++ body ++ [ck, 0x7E]).length - 5 =
          body.length from by simp]
        exact List.take_left body [ck, 0x7E]
      rw [h2, h3]
    show List.foldl frameStep
      (frameStep qs ([0x7E, 0xA5, addr] ++ body ++ [ck, 0x7E])) fs = _
    rw [hstep]

/-- Witness for C7: one valid 0x90 group followed by an invalid header byte
0x00 and junk parses the same as the valid group alone. -/
theorem claim_C7_witness :
    parse_body 7 [] ([[0x90, 1, 2, 3, 4, 5]].flatten ++ 0 :: [9]) =
      parse_body 7 [] [[0x90, 1, 2, 3, 4, 5]].flatten :=
  claim_C7.1 7 [] [[0x90, 1, 2, 3, 4, 5]] 0 [9]
    (by
      intro g hg
      rcases List.mem_singleton.mp hg with rfl
      exact ⟨0x90, [1, 2, 3, 4, 5], rfl, Or.inl rfl, rfl⟩)
    (by decide)

/-! ## Claim C9: payload from a bit index -/

theorem chunk40_length : ∀ (k : Nat) (bits : List Nat),
    bits.length = 40 * k → (chunk40 bits).length = k := by
  intro k
  induction k with
  | zero =>
      intro bits hlen
      have : bits = [] := List.eq_nil_of_length_eq_zero (by omega)
      subst this
      rfl
  | succ k ih =>
      intro bits hlen
      have hne : bits ≠ [] := by
        intro h
        subst h
        simp at hlen
      rw [chunk40_eq bits hne, List.length_cons,
        ih (bits.drop 40) (by simp [List.length_drop]; omega)]

theorem build_column_payloads_single (addr t : Nat) (queue : List Nat)
    (ht : t = TYPE_90 ∨ t = TYPE_10) :
    build_column_payloads [((addr, t), queue)] 4 =
      payloadsForKey 4 addr t queue := by
  have hused : used_addrs [((addr, t), queue)] = [addr] := by
    unfold used_addrs qkeys
    rw [show (([((addr, t), queue)] : Queues).map (fun e => e.1)).map
      (fun k => k.1) = [addr] from rfl]
    rw [List.dedup_cons_of_not_mem (by simp), List.dedup_nil]
    rfl
  unfold build_column_payloads
  rw [hused]
  rw [show ([addr] : List Nat).flatMap (addrBlock [((addr, t), queue)] 4) =
    addrBlock [((addr, t), queue)] 4 addr ++ [] from by simp]
  rw [List.append_nil, addrBlock_eq]
  rcases ht with rfl | rfl
  · rw [show qlookup [((addr, TYPE_90), queue)] (addr, TYPE_90) = some queue from by
      rw [qlookup_cons, if_pos rfl]]
    rw [show qlookup [((addr, TYPE_90), queue)] (addr, TYPE_10) = none from by
      rw [qlookup_cons, if_neg (by
        intro h
        have h2 : TYPE_90 = TYPE_10 := congrArg Prod.snd h
        exact absurd h2 (by decide))]
      rfl]
    simp
  · rw [show qlookup [((addr, TYPE_10), queue)] (addr, TYPE_90) = none from by
      rw [qlookup_cons, if_neg (by
        intro h
        have h2 : TYPE_10 = TYPE_90 := congrArg Prod.snd h
        exact absurd h2 (by decide))]
      rfl]
    rw [show qlookup [((addr, TYPE_10), queue)] (addr, TYPE_10) = some queue from by
      rw [qlookup_cons, if_pos rfl]]
    simp

theorem payloadsForKey_single_payload (addr t : Nat) (queue : List Nat)
    (hlen : queue.length = 160) :
    payloadsForKey 4 addr t queue = [addr :: (groupsFor t queue).flatten] := by
  have hg4 : (groupsFor t queue).length = 4 := by
    unfold groupsFor
    rw [List.length_map, chunk40_length 4 queue (by omega)]
  unfold payloadsForKey
  rcases hgs : groupsFor t queue with _ | ⟨g1, gs1⟩
  · rw [hgs] at hg4; simp at hg4
  · rw [hgs] at hg4
    rw [chunksOf_eq]
    have h3 : gs1.length = 3 := by simpa using hg4
    rw [List.take_of_length_le (by omega), List.drop_eq_nil_of_le (by omega)]
    rfl

theorem generate_command_eq (addr t bi : Nat) (ht : t = TYPE_90 ∨ t = TYPE_10)
    (hbi : bi < 160) :
    generate_command_from_bit_index addr t bi =
      addr :: (groupsFor t ((List.replicate 160 0).set bi 1)).flatten := by
  unfold generate_command_from_bit_index
  simp only [show max 160 (bi + 1) = 160 from by omega]
  rw [if_neg (by decide)]
  rw [build_column_payloads_single addr t _ ht,
    payloadsForKey_single_payload addr t _ (by simp)]
  rw [show List.find? (fun p => p.headD 0 = addr)
      [addr :: (groupsFor t ((List.replicate 160 0).set bi 1)).flatten] =
      some (addr :: (groupsFor t ((List.replicate 160 0).set bi 1)).flatten) from by
    rw [List.find?_cons_of_pos _ (by simp)]]

/-- C9 (amended): for every address, type in {0x90, 0x10} and
`bit_index < 160`, the returned payload's address byte is the given address
and decoding the payload recovers the length-160 queue with exactly the
`bit_index`-th bit set.  (For `bit_index ≥ 160` the claim fails: the set
bit lands in a later payload than the one returned; see the
counterexample.) -/
theorem claim_C9 (addr t bi : Nat) (ht : t = TYPE_90 ∨ t = TYPE_10)
    (hbi : bi < 160) :
    (generate_command_from_bit_index addr t bi).headD 0 = addr ∧
    qlookup (build_addr_type_bit_queues_from_payloads
        [generate_command_from_bit_index addr t bi]) (addr, t) =
      some ((List.replicate 160 0).set bi 1) := by
  have hq : generate_command_from_bit_index addr t bi =
      addr :: (groupsFor t ((List.replicate 160 0).set bi 1)).flatten :=
    generate_command_eq addr t bi ht hbi
  refine ⟨by rw [hq]; rfl, ?_⟩
  have hlen : ((List.replicate 160 0).set bi 1).length = 160 := by simp
  have hb : ∀ b ∈ (List.replicate 160 0).set bi 1, b < 2 := by
    intro b hbm
    rcases List.mem_or_eq_of_mem_set hbm with h | h
    · rw [List.eq_of_mem_replicate h]; omega
    · omega
  have hne : (List.replicate 160 0).set bi 1 ≠ [] := by
    intro h
    rw [h] at hlen
    simp at hlen
  have hdec : build_addr_type_bit_queues_from_payloads
      [generate_command_from_bit_index addr t bi] =
      qappend [] (addr, t) ((List.replicate 160 0).set bi 1 ++
        List.replicate ((40 - ((List.replicate 160 0).set bi 1).length % 40) % 40) 0) := by
    show List.foldl payloadStep [] [generate_command_from_bit_index addr t bi] = _
    rw [hq, ← payloadsForKey_single_payload addr t _ hlen]
    exact decodeFold_payloadsForKey addr t ht _ hne hb []
  rw [hdec, qlookup_qappend_self]
  rw [show ((40 - ((List.replicate 160 0).set bi 1).length % 40) % 40) = 0 from by
    rw [hlen]]
  simp [qlookup_nil]

/-- Witness for C9 at address 7, type 0x90, bit index 3. -/
theorem claim_C9_witness :
    (generate_command_from_bit_index 7 0x90 3).headD 0 = 7 ∧
    qlookup (build_addr_type_bit_queues_from_payloads
        [generate_command_from_bit_index 7 0x90 3]) (7, 0x90) =
      some ((List.replicate 160 0).set 3 1) :=
  claim_C9 7 0x90 3 (Or.inl rfl) (by decide)

/-- Counterexample to C9 as stated: at bit_index = 160 the returned payload
decodes to 160 zero bits — there is no 1 at offset 160 (nor anywhere). -/
theorem claim_C9_counterexample :
    qlookup (build_addr_type_bit_queues_from_payloads
        [generate_command_from_bit_index 7 0x90 160]) (7, 0x90) =
      some (List.replicate 160 0) ∧
    ((qlookup (build_addr_type_bit_queues_from_payloads
        [generate_command_from_bit_index 7 0x90 160]) (7, 0x90)).getD
      []).getD 160 0 = 0 := by
  constructor
  · rfl
  · rfl

/-! ## Claim C4: payload group structure and descending addresses -/

theorem flatten_length_const {α : Type} (n : Nat) : ∀ (gs : List (List α)),
    (∀ g ∈ gs, g.length = n) → gs.flatten.length = n * gs.length := by
  intro gs
  induction gs with
  | nil => intro _; rfl
  | cons g gs ih =>
      intro h
      rw [List.flatten_cons, List.length_append, h g (List.mem_cons_self g gs),
        ih (fun g' hg' => h g' (List.mem_cons_of_mem g hg')), List.length_cons,
        Nat.mul_succ]
      omega

theorem mem_addrBlock (qs : Queues) (gpp a : Nat) (p : List Nat)
    (hp : p ∈ addrBlock qs gpp a) :
    ∃ t bits gs, (t = TYPE_90 ∨ t = TYPE_10) ∧
      qlookup qs (a, t) = some bits ∧
      gs ∈ chunksOf gpp (groupsFor t bits) ∧ p = a :: gs.flatten := by
  unfold addrBlock at hp
  rcases List.mem_flatMap.mp hp with ⟨t, ht, hp2⟩
  have ht' : t = TYPE_90 ∨ t = TYPE_10 := by
    rcases List.mem_cons.mp ht with h | h
    · exact Or.inl h
    · exact Or.inr (List.mem_singleton.mp h)
  rcases hlk : qlookup qs (a, t) with _ | bits
  · rw [hlk] at hp2
    simp at hp2
  · rw [hlk] at hp2
    rcases List.mem_map.mp hp2 with ⟨gs, hgs, rfl⟩
    exact ⟨t, bits, gs, ht', hlk, hgs, rfl⟩

theorem head_addrBlock (qs : Queues) (gpp a : Nat) (p : List Nat)
    (hp : p ∈ addrBlock qs gpp a) : p.headD 0 = a := by
  obtain ⟨t, bits, gs, _, _, _, rfl⟩ := mem_addrBlock qs gpp a p hp
  rfl

theorem heads_flatMap_pairwise (qs : Queues) (gpp : Nat) : ∀ (l : List Nat),
    l.Pairwise (fun x y => y ≤ x) →
    ((l.flatMap (addrBlock qs gpp)).map (fun p => p.headD 0)).Pairwise
      (fun x y => y ≤ x) := by
  intro l
  induction l with
  | nil => intro _; simp
  | cons a l ih =>
      intro h
      rcases List.pairwise_cons.mp h with ⟨ha, hl⟩
      rw [List.flatMap_cons, List.map_append]
      rw [List.pairwise_append]
      refine ⟨?_, ih hl, ?_⟩
      · refine List.pairwise_of_forall_mem_list ?_
        intro x hx y hy
        rcases List.mem_map.mp hx with ⟨p, hp, rfl⟩
        rcases List.mem_map.mp hy with ⟨q, hq, rfl⟩
        show q.headD 0 ≤ p.headD 0
        rw [head_addrBlock qs gpp a p hp, head_addrBlock qs gpp a q hq]
      · intro x hx y hy
        rcases List.mem_map.mp hx with ⟨p, hp, rfl⟩
        rcases List.mem_map.mp hy with ⟨q, hq, rfl⟩
        rcases List.mem_flatMap.mp hq with ⟨b, hb, hqb⟩
        show q.headD 0 ≤ p.headD 0
        rw [head_addrBlock qs gpp a p hp, head_addrBlock qs gpp b q hqb]
        exact ha b hb

/-- C4: for every queue map given to `build_column_payloads` with the
default `groups_per_payload = 4`: (i) every emitted payload is an address
byte followed by the concatenation of `k` groups with `1 ≤ k ≤ 4`, so its
length is `1 + 6·k`, and each group is a `0x90`/`0x10` header followed by
exactly 5 data bytes; (ii) the payload head (address) bytes form a
non-increasing sequence; (iii) within one address, the emitted block is the
`0x90`-header payloads followed by the `0x10`-header payloads. -/
theorem claim_C4 (qs : Queues) :
    (∀ p ∈ build_column_payloads qs 4,
      ∃ a gs, p = a :: List.flatten gs ∧ p.length = 1 + 6 * gs.length ∧
        1 ≤ gs.length ∧ gs.length ≤ 4 ∧
        ∀ g ∈ gs, ∃ t d, g = t :: d ∧ (t = TYPE_90 ∨ t = TYPE_10) ∧
          d.length = 5) ∧
    ((build_column_payloads qs 4).map (fun p => p.headD 0)).Pairwise
      (fun x y => y ≤ x) ∧
    (∀ addr, ∃ P90 P10, addrBlock qs 4 addr = P90 ++ P10 ∧
      (∀ p ∈ P90, ∃ gs : List (List Nat), p = addr :: List.flatten gs ∧
        ∀ g ∈ gs, ∃ d, g = TYPE_90 :: d) ∧
      (∀ p ∈ P10, ∃ gs : List (List Nat), p = addr :: List.flatten gs ∧
        ∀ g ∈ gs, ∃ d, g = TYPE_10 :: d)) := by
  refine ⟨?_, ?_, ?_⟩
  · intro p hp
    rcases List.mem_flatMap.mp hp with ⟨a, _, hpa⟩
    obtain ⟨t, bits, gs, ht, hlk, hgs, rfl⟩ := mem_addrBlock qs 4 a p hpa
    obtain ⟨hne, hle, hmem⟩ := chunksOf_mem_props 4 (groupsFor t bits).length
      (groupsFor t bits) le_rfl gs hgs
    have hsix : ∀ g ∈ gs, g.length = 6 := by
      intro g hg
      obtain ⟨d, hgd, hd5⟩ := groupsFor_shape t bits g (hmem g hg)
      rw [hgd, List.length_cons, hd5]
    refine ⟨a, gs, rfl, ?_, ?_, ?_, ?_⟩
    · rw [List.length_cons, flatten_length_const 6 gs hsix]
      omega
    · exact List.length_pos.mpr hne
    · have h41 : max 4 1 = 4 := rfl
      rw [h41] at hle
      exact hle
    · intro g hg
      obtain ⟨d, hgd, hd5⟩ := groupsFor_shape t bits g (hmem g hg)
      exact ⟨t, d, hgd, ht, hd5⟩
  · exact heads_flatMap_pairwise qs 4 (used_addrs qs) (sortDesc_sorted _)
  · intro addr
    refine ⟨(match qlookup qs (addr, TYPE_90) with
        | none => []
        | some bits => payloadsForKey 4 addr TYPE_90 bits),
      (match qlookup qs (addr, TYPE_10) with
        | none => []
        | some bits => payloadsForKey 4 addr TYPE_10 bits),
      addrBlock_eq qs 4 addr, ?_, ?_⟩
    · rcases h90 : qlookup qs (addr, TYPE_90) with _ | bits
      · intro p hp
        simp at hp
      · intro p hp
        rcases List.mem_map.mp hp with ⟨gs, hgs, rfl⟩
        obtain ⟨_, _, hmem⟩ := chunksOf_mem_props 4
          (groupsFor TYPE_90 bits).length (groupsFor TYPE_90 bits) le_rfl gs hgs
        refine ⟨gs, rfl, ?_⟩
        intro g hg
        rcases List.mem_map.mp (hmem g hg) with ⟨c, _, rfl⟩
        exact ⟨bits_to_data_bytes c, rfl⟩
    · rcases h10 : qlookup qs (addr, TYPE_10) with _ | bits
      · intro p hp
        simp at hp
      · intro p hp
        rcases List.mem_map.mp hp with ⟨gs, hgs, rfl⟩
        obtain ⟨_, _, hmem⟩ := chunksOf_mem_props 4
          (groupsFor TYPE_10 bits).length (groupsFor TYPE_10 bits) le_rfl gs hgs
        refine ⟨gs, rfl, ?_⟩
        intro g hg
        rcases List.mem_map.mp (hmem g hg) with ⟨c, _, rfl⟩
        exact ⟨bits_to_data_bytes c, rfl⟩

/-! ## Claim C3: the single-pixel payload -/

/-- The number of set bits across the data bytes of a payload body: walk
6-byte `[type, d0..d4]` blocks and total the bit counts of the five data
bytes of each block (the type headers are not data bytes). -/
def dataBitCount : List Nat → Nat
  | _ :: d0 :: d1 :: d2 :: d3 :: d4 :: rest =>
      bitsum8 d0 + bitsum8 d1 + bitsum8 d2 + bitsum8 d3 + bitsum8 d4 +
        dataBitCount rest
  | _ => 0

theorem dataBitCount_cons6 (x d0 d1 d2 d3 d4 : Nat) (rest : List Nat) :
    dataBitCount (x :: d0 :: d1 :: d2 :: d3 :: d4 :: rest) =
      bitsum8 d0 + bitsum8 d1 + bitsum8 d2 + bitsum8 d3 + bitsum8 d4 +
        dataBitCount rest := rfl

theorem anyNonzeroChunks_cons6 (x d0 d1 d2 d3 d4 : Nat) (rest : List Nat) :
    anyNonzeroChunks (x :: d0 :: d1 :: d2 :: d3 :: d4 :: rest) =
      ((([d0, d1, d2, d3, d4]).any (fun b => b ≠ 0)) ||
        anyNonzeroChunks rest) := rfl

theorem dataBitCount_group (t : Nat) (c : List Nat) (rest : List Nat)
    (hc : c.length = 40) (hb : ∀ b ∈ c, b < 2) :
    dataBitCount (t :: (bits_to_data_bytes c ++ rest)) =
      c.sum + dataBitCount rest := by
  have h1 : bits_to_data_bytes c =
      reverse_byte (pack8 (c.take 8)) :: bits_to_data_bytes (c.drop 8) := by
    conv_lhs => rw [(List.take_append_drop 8 c).symm]
    rw [bits_to_data_bytes_eight _ _ (by simp [List.length_take]; omega)]
  have h2 : bits_to_data_bytes (c.drop 8) =
      reverse_byte (pack8 ((c.drop 8).take 8)) ::
        bits_to_data_bytes ((c.drop 8).drop 8) := by
    conv_lhs => rw [(List.take_append_drop 8 (c.drop 8)).symm]
    rw [bits_to_data_bytes_eight _ _
      (by simp [List.length_take, List.length_drop]; omega)]
  have h3 : bits_to_data_bytes ((c.drop 8).drop 8) =
      reverse_byte (pack8 (((c.drop 8).drop 8).take 8)) ::
        bits_to_data_bytes (((c.drop 8).drop 8).drop 8) := by
    conv_lhs => rw [(List.take_append_drop 8 ((c.drop 8).drop 8)).symm]
    rw [bits_to_data_bytes_eight _ _
      (by simp [List.length_take, List.length_drop]; omega)]
  have h4 : bits_to_data_bytes (((c.drop 8).drop 8).drop 8) =
      reverse_byte (pack8 ((((c.drop 8).drop 8).drop 8).take 8)) ::
        bits_to_data_bytes ((((c.drop 8).drop 8).drop 8).drop 8) := by
    conv_lhs => rw [(List.take_append_drop 8 (((c.drop 8).drop 8).drop 8)).symm]
    rw [bits_to_data_bytes_eight _ _
      (by simp [List.length_take, List.length_drop]; omega)]
  have h5 : bits_to_data_bytes ((((c.drop 8).drop 8).drop 8).drop 8) =
      [reverse_byte (pack8 ((((c.drop 8).drop 8).drop 8).drop 8))] := by
    have hlen : ((((c.drop 8).drop 8).drop 8).drop 8).length = 8 := by
      simp [List.length_drop]
      omega
    have h := bits_to_data_bytes_eight ((((c.drop 8).drop 8).drop 8).drop 8)
      [] hlen
    rw [List.append_nil] at h
    rw [h]
    rfl
  rw [h1, h2, h3, h4, h5]
  simp only [List.cons_append, List.nil_append]
  rw [dataBitCount_cons6]
  rw [bitsum8_pack8 _ (by simp [List.length_take]; omega)
      (fun b hbm => hb b (List.mem_of_mem_take hbm)),
    bitsum8_pack8 _ (by simp [List.length_take, List.length_drop]; omega)
      (fun b hbm => hb b (List.mem_of_mem_drop (List.mem_of_mem_take hbm))),
    bitsum8_pack8 _ (by simp [List.length_take, List.length_drop]; omega)
      (fun b hbm => hb b
        (List.mem_of_mem_drop (List.mem_of_mem_drop (List.mem_of_mem_take hbm)))),
    bitsum8_pack8 _ (by simp [List.length_take, List.length_drop]; omega)
      (fun b hbm => hb b (List.mem_of_mem_drop (List.mem_of_mem_drop
        (List.mem_of_mem_drop (List.mem_of_mem_take hbm))))),
    bitsum8_pack8 _ (by simp [List.length_drop]; omega)
      (fun b hbm => hb b (List.mem_of_mem_drop (List.mem_of_mem_drop
        (List.mem_of_mem_drop (List.mem_of_mem_drop hbm)))))]
  have hs0 : c.sum = (c.take 8).sum + (c.drop 8).sum := by
    rw [← List.sum_append, List.take_append_drop]
  have hs1 : (c.drop 8).sum = ((c.drop 8).take 8).sum + ((c.drop 8).drop 8).sum := by
    rw [← List.sum_append, List.take_append_drop]
  have hs2 : ((c.drop 8).drop 8).sum = (((c.drop 8).drop 8).take 8).sum +
      (((c.drop 8).drop 8).drop 8).sum := by
    rw [← List.sum_append, List.take_append_drop]
  have hs3 : (((c.drop 8).drop 8).drop 8).sum =
      ((((c.drop 8).drop 8).drop 8).take 8).sum +
      ((((c.drop 8).drop 8).drop 8).drop 8).sum := by
    rw [← List.sum_append, List.take_append_drop]
  omega

theorem dataBitCount_body (t : Nat) : ∀ (cs : List (List Nat)),
    (∀ c ∈ cs, c.length = 40 ∧ ∀ b ∈ c, b < 2) →
    dataBitCount ((cs.map (fun c => t :: bits_to_data_bytes c)).flatten) =
      (cs.map List.sum).sum := by
  intro cs
  induction cs with
  | nil => intro _; rfl
  | cons c cs ih =>
      intro h
      rw [List.map_cons, List.flatten_cons, List.map_cons, List.sum_cons]
      rw [List.cons_append]
      rw [dataBitCount_group t c _ (h c (List.mem_cons_self c cs)).1
        (h c (List.mem_cons_self c cs)).2]
      rw [ih (fun c' hc' => h c' (List.mem_cons_of_mem _ hc'))]

theorem sum_flatten_eq : ∀ (L : List (List Nat)),
    L.flatten.sum = (L.map List.sum).sum := by
  intro L
  induction L with
  | nil => rfl
  | cons x L ih =>
      rw [List.flatten_cons, List.sum_append, List.map_cons, List.sum_cons, ih]

theorem anyNonzeroChunks_flatten_zero : ∀ (gs : List (List Nat)),
    (∀ g ∈ gs, ∃ tb, g = [tb, 0, 0, 0, 0, 0]) →
    anyNonzeroChunks gs.flatten = false := by
  intro gs
  induction gs with
  | nil => intro _; rfl
  | cons g gs ih =>
      intro h
      obtain ⟨tb, rfl⟩ := h g (List.mem_cons_self g gs)
      show anyNonzeroChunks ([tb, 0, 0, 0, 0, 0] :: gs).flatten = false
      rw [show ([tb, 0, 0, 0, 0, 0] :: gs).flatten =
        tb :: 0 :: 0 :: 0 :: 0 :: 0 :: gs.flatten from rfl]
      rw [anyNonzeroChunks_cons6]
      rw [ih (fun g' hg' => h g' (List.mem_cons_of_mem _ hg'))]
      rfl

theorem dataBitCount_flatten_of_false : ∀ (gs : List (List Nat)),
    (∀ g ∈ gs, ∃ tb d, g = tb :: d ∧ d.length = 5) →
    anyNonzeroChunks gs.flatten = false →
    dataBitCount gs.flatten = 0 := by
  intro gs
  induction gs with
  | nil => intro _ _; rfl
  | cons g gs ih =>
      intro hshape hfalse
      obtain ⟨tb, d, rfl, hd5⟩ := hshape g (List.mem_cons_self g gs)
      rcases d with _ | ⟨d0, _ | ⟨d1, _ | ⟨d2, _ | ⟨d3, _ | ⟨d4, _ | ⟨d5, dr⟩⟩⟩⟩⟩⟩ <;>
        simp at hd5
      rw [show ((tb :: [d0, d1, d2, d3, d4]) :: gs).flatten =
        tb :: d0 :: d1 :: d2 :: d3 :: d4 :: gs.flatten from rfl] at hfalse ⊢
      rw [anyNonzeroChunks_cons6] at hfalse
      rw [dataBitCount_cons6]
      rcases Bool.or_eq_false_iff.mp hfalse with ⟨h1, h2⟩
      simp at h1
      obtain ⟨rfl, rfl, rfl, rfl, rfl⟩ := h1
      rw [ih (fun g' hg' => hshape g' (List.mem_cons_of_mem _ hg')) h2]
      decide

theorem chunk40_ne_nil (bits : List Nat) (h : bits ≠ []) : chunk40 bits ≠ [] := by
  rw [chunk40_eq bits h]
  simp

theorem chunk40_length_le : ∀ (k : Nat) (bits : List Nat),
    bits.length ≤ 40 * k → (chunk40 bits).length ≤ k := by
  intro k
  induction k with
  | zero =>
      intro bits hlen
      have : bits = [] := List.eq_nil_of_length_eq_zero (by omega)
      subst this
      simp [chunk40, chunk40Go]
  | succ k ih =>
      intro bits hlen
      by_cases h : bits = []
      · subst h
        simp [chunk40, chunk40Go]
      · rw [chunk40_eq bits h, List.length_cons]
        have := ih (bits.drop 40) (by simp [List.length_drop]; omega)
        omega

theorem chunk40_zero : ∀ (k : Nat) (bits : List Nat),
    bits.length ≤ 40 * k → (∀ b ∈ bits, b = 0) →
    ∀ c ∈ chunk40 bits, ∀ b ∈ c, b = 0 := by
  intro k
  induction k with
  | zero =>
      intro bits hlen _ c hc
      have : bits = [] := List.eq_nil_of_length_eq_zero (by omega)
      subst this
      simp [chunk40, chunk40Go] at hc
  | succ k ih =>
      intro bits hlen hb c hc
      by_cases hnil : bits = []
      · subst hnil
        simp [chunk40, chunk40Go] at hc
      · rw [chunk40_eq bits hnil] at hc
        rcases List.mem_cons.mp hc with rfl | hc'
        · intro b hbm
          rcases List.mem_append.mp hbm with hbm' | hbm'
          · exact hb b (List.mem_of_mem_take hbm')
          · exact List.eq_of_mem_replicate hbm'
        · exact ih (bits.drop 40) (by simp [List.length_drop]; omega)
            (fun b hbm => hb b (List.mem_of_mem_drop hbm)) c hc'

theorem chunksOf_groupsFor_single (t : Nat) (q : List Nat) (hne : q ≠ [])
    (hlen : q.length ≤ 160) :
    chunksOf 4 (groupsFor t q) = [groupsFor t q] := by
  have hg1 : groupsFor t q ≠ [] := by
    unfold groupsFor
    intro h
    exact chunk40_ne_nil q hne (List.map_eq_nil_iff.mp h)
  have hg4 : (groupsFor t q).length ≤ 4 := by
    unfold groupsFor
    rw [List.length_map]
    exact chunk40_length_le 4 q (by omega)
  rcases hgs : groupsFor t q with _ | ⟨g1, gs1⟩
  · exact absurd hgs hg1
  · rw [hgs] at hg4
    rw [chunksOf_eq]
    have h3 : gs1.length ≤ 3 := by
      rw [List.length_cons] at hg4
      omega
    rw [List.take_of_length_le (by omega), List.drop_eq_nil_of_le (by omega)]
    rfl

theorem payloadsForKey_le160 (addr t : Nat) (q : List Nat) (hne : q ≠ [])
    (hlen : q.length ≤ 160) :
    payloadsForKey 4 addr t q = [addr :: (groupsFor t q).flatten] := by
  unfold payloadsForKey
  rw [chunksOf_groupsFor_single t q hne hlen]
  rfl

theorem sum_indicator (x : Nat × Nat) : ∀ (l : List (Nat × Nat)), l.Nodup →
    x ∈ l → (l.map (fun y => if y = x then 1 else 0)).sum = 1 := by
  intro l
  induction l with
  | nil => intro _ hx; simp at hx
  | cons a l ih =>
      intro hnd hx
      rcases List.nodup_cons.mp hnd with ⟨hna, hndl⟩
      rw [List.map_cons, List.sum_cons]
      rcases List.mem_cons.mp hx with heq | hx'
      · subst heq
        rw [if_pos rfl]
        have hz : (l.map (fun y => if y = x then 1 else 0)).sum = 0 := by
          apply List.sum_eq_zero
          intro z hzm
          rcases List.mem_map.mp hzm with ⟨y, hy, rfl⟩
          exact if_neg (fun (he : y = x) => hna (he ▸ hy))
        rw [hz]
      · have hne : a ≠ x := fun he => hna (he ▸ hx')
        rw [if_neg hne, ih hndl hx']

theorem find?_unique {α : Type} (pred : α → Bool) (x : α) : ∀ (l : List α),
    x ∈ l → pred x = true → (∀ y ∈ l, pred y = true → y = x) →
    l.find? pred = some x := by
  intro l
  induction l with
  | nil => intro hx _ _; simp at hx
  | cons a l ih =>
      intro hx hpx huni
      by_cases ha : pred a = true
      · rw [List.find?_cons_of_pos _ ha, huni a (List.mem_cons_self a l) ha]
      · rw [List.find?_cons_of_neg _ (by simpa using ha)]
        refine ih ?_ hpx (fun y hy hpy => huni y (List.mem_cons_of_mem a hy) hpy)
        rcases List.mem_cons.mp hx with heq | hx'
        · subst heq
          exact absurd hpx ha
        · exact hx'

theorem qlookup_build_some (hole : Bool) (m : Mat) (k : Nat × Nat)
    (bits : List Nat)
    (h : qlookup (build_bit_queues_from_matrix hole m) k = some bits) :
    ∃ seg t, seg ∈ SEGMENTS ∧ (t = TYPE_90 ∨ t = TYPE_10) ∧
      k = queueKey seg t ∧ bits = segmentBits hole m seg t := by
  have hk : k ∈ allKeys :=
    (qkeys_build_perm hole m).mem_iff.mp (qlookup_some_mem_qkeys _ k bits h)
  have hk8 : k = ((7 : Nat), (0x90 : Nat)) ∨ k = (3, 0x10) ∨ k = (8, 0x90) ∨
      k = (4, 0x10) ∨ k = (6, 0x90) ∨ k = (2, 0x10) ∨ k = (5, 0x90) ∨
      k = (1, 0x10) := by
    simpa [allKeys] using hk
  rcases hk8 with rfl | rfl | rfl | rfl | rfl | rfl | rfl | rfl
  · exact ⟨segTL, TYPE_90, by simp [SEGMENTS], Or.inl rfl, rfl,
      Option.some.inj (h.symm.trans
        (encode_lookup hole m segTL (by simp [SEGMENTS]) TYPE_90 (Or.inl rfl)))⟩
  · exact ⟨segTL, TYPE_10, by simp [SEGMENTS], Or.inr rfl, rfl,
      Option.some.inj (h.symm.trans
        (encode_lookup hole m segTL (by simp [SEGMENTS]) TYPE_10 (Or.inr rfl)))⟩
  · exact ⟨segTR, TYPE_90, by simp [SEGMENTS], Or.inl rfl, rfl,
      Option.some.inj (h.symm.trans
        (encode_lookup hole m segTR (by simp [SEGMENTS]) TYPE_90 (Or.inl rfl)))⟩
  · exact ⟨segTR, TYPE_10, by simp [SEGMENTS], Or.inr rfl, rfl,
      Option.some.inj (h.symm.trans
        (encode_lookup hole m segTR (by simp [SEGMENTS]) TYPE_10 (Or.inr rfl)))⟩
  · exact ⟨segBL, TYPE_90, by simp [SEGMENTS], Or.inl rfl, rfl,
      Option.some.inj (h.symm.trans
        (encode_lookup hole m segBL (by simp [SEGMENTS]) TYPE_90 (Or.inl rfl)))⟩
  · exact ⟨segBL, TYPE_10, by simp [SEGMENTS], Or.inr rfl, rfl,
      Option.some.inj (h.symm.trans
        (encode_lookup hole m segBL (by simp [SEGMENTS]) TYPE_10 (Or.inr rfl)))⟩
  · exact ⟨segBR, TYPE_90, by simp [SEGMENTS], Or.inl rfl, rfl,
      Option.some.inj (h.symm.trans
        (encode_lookup hole m segBR (by simp [SEGMENTS]) TYPE_90 (Or.inl rfl)))⟩
  · exact ⟨segBR, TYPE_10, by simp [SEGMENTS], Or.inr rfl, rfl,
      Option.some.inj (h.symm.trans
        (encode_lookup hole m segBR (by simp [SEGMENTS]) TYPE_10 (Or.inr rfl)))⟩

theorem segmentBits_delta_zero (hole : Bool) (r0 c0 : Nat) (seg : Segment)
    (t : Nat) (hnot : ((r0, c0) : Nat × Nat) ∉ typedCells hole seg t) :
    ∀ b ∈ segmentBits hole (deltaMatrix r0 c0) seg t, b = 0 := by
  intro b hb
  rcases List.mem_map.mp hb with ⟨rc, hrc, rfl⟩
  show deltaMatrix r0 c0 rc.1 rc.2 = 0
  unfold deltaMatrix
  rw [if_neg]
  intro hcond
  apply hnot
  have he : rc = (r0, c0) := Prod.ext_iff.mpr ⟨hcond.1, hcond.2⟩
  rw [← he]
  exact hrc

theorem segmentBits_delta_sum_one (hole : Bool) (r0 c0 : Nat) (seg : Segment)
    (t : Nat) (hmem : ((r0, c0) : Nat × Nat) ∈ typedCells hole seg t) :
    (segmentBits hole (deltaMatrix r0 c0) seg t).sum = 1 := by
  have hnd : (typedCells hole seg t).Nodup :=
    (scanCells_nodup seg).filter _
  have hfun : ∀ rc ∈ typedCells hole seg t,
      deltaMatrix r0 c0 rc.1 rc.2 =
        (fun y => if y = ((r0, c0) : Nat × Nat) then 1 else 0) rc := by
    intro rc _
    show deltaMatrix r0 c0 rc.1 rc.2 = if rc = (r0, c0) then 1 else 0
    unfold deltaMatrix
    by_cases hrc : rc = (r0, c0)
    · subst hrc
      rw [if_pos ⟨rfl, rfl⟩, if_pos rfl]
    · rw [if_neg (fun hc => hrc (Prod.ext_iff.mpr ⟨hc.1, hc.2⟩)), if_neg hrc]
  show ((typedCells hole seg t).map (fun rc => deltaMatrix r0 c0 rc.1 rc.2)).sum = 1
  rw [List.map_congr_left hfun]
  exact sum_indicator (r0, c0) (typedCells hole seg t) hnd hmem

theorem typedCells_length_le160 (hole : Bool) (seg : Segment)
    (hseg : seg ∈ SEGMENTS) (t : Nat) (ht : t = TYPE_90 ∨ t = TYPE_10) :
    (typedCells hole seg t).length ≤ 160 := by
  rcases mem_SEGMENTS_cases seg hseg with rfl | rfl | rfl | rfl <;>
    rcases ht with rfl | rfl <;> cases hole <;> decide

/-- Encoding the single-pixel matrix of a non-hole pixel: the activity
search of `generate_single_pixel_command` finds exactly the payload of the
pixel's (address, type) queue, and that payload's data bytes hold exactly
one set bit. -/
theorem single_pixel_core (hole : Bool) (seg : Segment) (hseg : seg ∈ SEGMENTS)
    (grow gcol t : Nat) (htt : t = TYPE_90 ∨ t = TYPE_10)
    (hmemT : ((grow, gcol) : Nat × Nat) ∈ typedCells hole seg t)
    (htypeOf : typeOf hole seg (grow, gcol) = some t) :
    (build_column_payloads
        (build_bit_queues_from_matrix hole (deltaMatrix grow gcol)) 4).find?
      (fun p => anyNonzeroChunks (p.drop 1)) =
      some ((if t = TYPE_90 then seg.addr_90 else seg.addr_10) ::
        (groupsFor t (segmentBits hole (deltaMatrix grow gcol) seg t)).flatten) ∧
    dataBitCount
      ((groupsFor t (segmentBits hole (deltaMatrix grow gcol) seg t)).flatten) = 1 := by
  have hscan : ((grow, gcol) : Nat × Nat) ∈ scanCells seg :=
    mem_scanCells_of_typedCells hole seg t _ hmemT
  have hqne : segmentBits hole (deltaMatrix grow gcol) seg t ≠ [] :=
    segmentBits_ne_nil hole _ seg hseg t htt
  have hqlen : (segmentBits hole (deltaMatrix grow gcol) seg t).length ≤ 160 := by
    have h1 := typedCells_length_le160 hole seg hseg t htt
    have h2 : (segmentBits hole (deltaMatrix grow gcol) seg t).length =
        (typedCells hole seg t).length := by
      unfold segmentBits
      rw [List.length_map]
    omega
  have hprops : ∀ c ∈ chunk40 (segmentBits hole (deltaMatrix grow gcol) seg t),
      c.length = 40 ∧ ∀ b ∈ c, b < 2 := by
    intro c hc
    constructor
    · exact chunk40_length_mem
        (segmentBits hole (deltaMatrix grow gcol) seg t).length
        (segmentBits hole (deltaMatrix grow gcol) seg t) (by omega) c hc
    · refine chunk40_entries
        (segmentBits hole (deltaMatrix grow gcol) seg t).length
        (segmentBits hole (deltaMatrix grow gcol) seg t) (by omega) ?_ c hc
      intro b hb
      rcases List.mem_map.mp hb with ⟨rc, _, rfl⟩
      show deltaMatrix grow gcol rc.1 rc.2 < 2
      unfold deltaMatrix
      split <;> omega
  have hsum1 : (segmentBits hole (deltaMatrix grow gcol) seg t).sum = 1 :=
    segmentBits_delta_sum_one hole grow gcol seg t hmemT
  have hcount : dataBitCount
      ((groupsFor t (segmentBits hole (deltaMatrix grow gcol) seg t)).flatten) = 1 := by
    unfold groupsFor
    rw [dataBitCount_body t
      (chunk40 (segmentBits hole (deltaMatrix grow gcol) seg t)) hprops]
    rw [← sum_flatten_eq]
    rw [chunk40_flatten (segmentBits hole (deltaMatrix grow gcol) seg t).length
      (segmentBits hole (deltaMatrix grow gcol) seg t) (by omega)]
    rw [List.sum_append, hsum1]
    simp
  have hlkT : qlookup
      (build_bit_queues_from_matrix hole (deltaMatrix grow gcol))
      ((if t = TYPE_90 then seg.addr_90 else seg.addr_10), t) =
      some (segmentBits hole (deltaMatrix grow gcol) seg t) :=
    encode_lookup hole (deltaMatrix grow gcol) seg hseg t htt
  have hpk : payloadsForKey 4 (if t = TYPE_90 then seg.addr_90 else seg.addr_10)
      t (segmentBits hole (deltaMatrix grow gcol) seg t) =
      [(if t = TYPE_90 then seg.addr_90 else seg.addr_10) ::
        (groupsFor t (segmentBits hole (deltaMatrix grow gcol) seg t)).flatten] :=
    payloadsForKey_le160 _ t _ hqne hqlen
  have haddr : (if t = TYPE_90 then seg.addr_90 else seg.addr_10) ∈
      used_addrs (build_bit_queues_from_matrix hole (deltaMatrix grow gcol)) :=
    mem_used_addrs _ _ t _ hlkT
  have hblock : ((if t = TYPE_90 then seg.addr_90 else seg.addr_10) ::
      (groupsFor t (segmentBits hole (deltaMatrix grow gcol) seg t)).flatten) ∈
      addrBlock (build_bit_queues_from_matrix hole (deltaMatrix grow gcol)) 4
        (if t = TYPE_90 then seg.addr_90 else seg.addr_10) := by
    unfold addrBlock
    apply List.mem_flatMap.mpr
    refine ⟨t, ?_, ?_⟩
    · rcases htt with rfl | rfl <;> simp
    · rw [hlkT]
      show _ ∈ payloadsForKey 4
        (if t = TYPE_90 then seg.addr_90 else seg.addr_10) t
        (segmentBits hole (deltaMatrix grow gcol) seg t)
      rw [hpk]
      exact List.mem_singleton.mpr rfl
  have hpmem : ((if t = TYPE_90 then seg.addr_90 else seg.addr_10) ::
      (groupsFor t (segmentBits hole (deltaMatrix grow gcol) seg t)).flatten) ∈
      build_column_payloads
        (build_bit_queues_from_matrix hole (deltaMatrix grow gcol)) 4 := by
    show _ ∈ (used_addrs
      (build_bit_queues_from_matrix hole (deltaMatrix grow gcol))).flatMap
      (addrBlock (build_bit_queues_from_matrix hole (deltaMatrix grow gcol)) 4)
    exact List.mem_flatMap.mpr ⟨_, haddr, hblock⟩
  have hpredT : anyNonzeroChunks
      (((if t = TYPE_90 then seg.addr_90 else seg.addr_10) ::
        (groupsFor t (segmentBits hole (deltaMatrix grow gcol) seg t)).flatten).drop 1) =
      true := by
    show anyNonzeroChunks
      ((groupsFor t (segmentBits hole (deltaMatrix grow gcol) seg t)).flatten) = true
    cases hAny : anyNonzeroChunks
        ((groupsFor t (segmentBits hole (deltaMatrix grow gcol) seg t)).flatten) with
    | false =>
        exfalso
        have h0 : dataBitCount
            ((groupsFor t (segmentBits hole (deltaMatrix grow gcol) seg t)).flatten) = 0 :=
          dataBitCount_flatten_of_false _ (fun g hg => by
            obtain ⟨d, hgd, hd5⟩ := groupsFor_shape t _ g hg
            exact ⟨t, d, hgd, hd5⟩) hAny
        rw [h0] at hcount
        exact absurd hcount (by decide)
    | true => rfl
  have huniq : ∀ q ∈ build_column_payloads
      (build_bit_queues_from_matrix hole (deltaMatrix grow gcol)) 4,
      anyNonzeroChunks (q.drop 1) = true →
      q = (if t = TYPE_90 then seg.addr_90 else seg.addr_10) ::
        (groupsFor t (segmentBits hole (deltaMatrix grow gcol) seg t)).flatten := by
    intro q hq hpred
    rcases List.mem_flatMap.mp hq with ⟨a, _, hqa⟩
    obtain ⟨t', bits, gs, ht', hlk', hgs, rfl⟩ := mem_addrBlock _ 4 a q hqa
    obtain ⟨seg2, t2, hseg2, htt2, hkeq, hbits⟩ :=
      qlookup_build_some hole (deltaMatrix grow gcol) (a, t') bits hlk'
    have ht2 : t' = t2 := congrArg Prod.snd hkeq
    by_cases hsame : seg2 = seg ∧ t2 = t
    · have hseq : seg2 = seg := hsame.1
      have hteq : t2 = t := hsame.2
      have ha : a = (if t = TYPE_90 then seg.addr_90 else seg.addr_10) := by
        have h := congrArg Prod.fst hkeq
        rw [hseq, hteq] at h
        exact h
      have hbits' : bits = segmentBits hole (deltaMatrix grow gcol) seg t := by
        rw [hbits, hseq, hteq]
      rw [ht2, hteq, hbits'] at hgs
      rw [chunksOf_groupsFor_single t _ hqne hqlen] at hgs
      have hgseq := List.mem_singleton.mp hgs
      rw [ha, hgseq]
    · have hnm : ((grow, gcol) : Nat × Nat) ∉ typedCells hole seg2 t2 := by
        intro hm2
        have h1 : ((grow, gcol) : Nat × Nat) ∈ scanCells seg2 :=
          mem_scanCells_of_typedCells hole seg2 t2 _ hm2
        have hsegeq : seg2 = seg := by
          by_contra hne2
          exact scanCells_pair_disjoint seg seg2 hseg hseg2
            (fun he => hne2 he.symm) _ hscan h1
        subst hsegeq
        have h2 : typeOf hole seg2 (grow, gcol) = some t2 := by
          have h3 := (List.mem_filter.mp (show ((grow, gcol) : Nat × Nat) ∈
            (scanCells seg2).filter
              (fun rc => typeOf hole seg2 rc = some t2) from hm2)).2
          exact of_decide_eq_true h3
        rw [htypeOf] at h2
        exact hsame ⟨rfl, (Option.some.inj h2).symm⟩
      have hzero : ∀ b ∈ bits, b = 0 := by
        rw [hbits]
        exact segmentBits_delta_zero hole grow gcol seg2 t2 hnm
      have hgshape : ∀ g ∈ gs, ∃ tb, g = [tb, 0, 0, 0, 0, 0] := by
        intro g hg
        have hgmem : g ∈ groupsFor t' bits :=
          (chunksOf_mem_props 4 (groupsFor t' bits).length _ le_rfl gs hgs).2.2 g hg
        rcases List.mem_map.mp hgmem with ⟨c, hcm, rfl⟩
        have hc0 : ∀ b ∈ c, b = 0 :=
          chunk40_zero bits.length bits (by omega) hzero c hcm
        have hc40 : c.length = 40 :=
          chunk40_length_mem bits.length bits (by omega) c hcm
        refine ⟨t', ?_⟩
        show t' :: bits_to_data_bytes c = [t', 0, 0, 0, 0, 0]
        have hcrep : c = List.replicate 40 0 := by
          have h := List.eq_replicate_of_mem hc0
          rw [hc40] at h
          exact h
        rw [hcrep]
        rw [show bits_to_data_bytes (List.replicate 40 0) = [0, 0, 0, 0, 0]
          from by decide]
      have hfal : anyNonzeroChunks ((a :: gs.flatten).drop 1) = false := by
        show anyNonzeroChunks gs.flatten = false
        exact anyNonzeroChunks_flatten_zero gs hgshape
      rw [hfal] at hpred
      exact absurd hpred (by decide)
  exact ⟨find?_unique _ _ _ hpmem hpredT huniq, hcount⟩

/-- When the activity search succeeds, `generate_single_pixel_command`
returns the found payload. -/
theorem generate_single_pixel_found (hole : Bool) (segName : String)
    (seg : Segment) (sr sc : Nat) (p : List Nat)
    (hfind : SEGMENTS.find? (fun s => s.name == segName) = some seg)
    (hbound : seg.row_start + sr < MATRIX_ROWS ∧
      seg.col_start + sc < MATRIX_COLS)
    (hfp : (build_column_payloads (build_bit_queues_from_matrix hole
        (deltaMatrix (seg.row_start + sr) (seg.col_start + sc))) 4).find?
        (fun q => anyNonzeroChunks (q.drop 1)) = some p) :
    generate_single_pixel_command hole segName sr sc = p := by
  unfold generate_single_pixel_command
  rw [hfind]
  split
  next h => exact absurd h (by simp)
  next s h =>
    obtain rfl : seg = s := Option.some.inj h
    rw [if_pos hbound]
    rw [show (fun r c => if r = seg.row_start + sr ∧ c = seg.col_start + sc
        then 1 else 0) = deltaMatrix (seg.row_start + sr) (seg.col_start + sc)
      from rfl]
    simp only [hfp]

/-- C3: for every segment of the table and every in-bounds segment-local
coordinate whose pixel type is not the hole, the payload returned by
`generate_single_pixel_command` carries exactly one set bit across its data
bytes, and its address byte is the address `get_pixel_info` reports for that
pixel. -/
theorem claim_C3 (hole : Bool) (seg : Segment) (hseg : seg ∈ SEGMENTS)
    (sr sc : Nat) (hr : sr < 13) (hc : sc < 24) (t : Nat)
    (ht0 : logical_type_for_segment_pixel hole sr sc = some t) :
    dataBitCount
      ((generate_single_pixel_command hole seg.name sr sc).drop 1) = 1 ∧
    ∃ pi, get_pixel_info hole seg.name sr sc = some pi ∧
      pi.address =
        some ((generate_single_pixel_command hole seg.name sr sc).headD 0) := by
  have htt : t = TYPE_90 ∨ t = TYPE_10 := by
    unfold logical_type_for_segment_pixel at ht0
    split_ifs at ht0
    · exact Or.inl (Option.some.inj ht0).symm
    · exact Or.inr (Option.some.inj ht0).symm
    · exact Or.inl (Option.some.inj ht0).symm
    · exact Or.inr (Option.some.inj ht0).symm
  have hbound : seg.row_start + sr < MATRIX_ROWS ∧
      seg.col_start + sc < MATRIX_COLS := by
    rcases mem_SEGMENTS_cases seg hseg with rfl | rfl | rfl | rfl <;>
      constructor <;>
      simp [segTL, segTR, segBL, segBR, MATRIX_ROWS, MATRIX_COLS] <;> omega
  have hfindseg : SEGMENTS.find? (fun s => s.name == seg.name) = some seg := by
    rcases mem_SEGMENTS_cases seg hseg with rfl | rfl | rfl | rfl <;> rfl
  have htypeOf : typeOf hole seg (seg.row_start + sr, seg.col_start + sc) =
      some t := by
    show logical_type_for_segment_pixel hole
      (seg.row_start + sr - seg.row_start)
      (seg.col_start + sc - seg.col_start) = some t
    simp only [Nat.add_sub_cancel_left]
    exact ht0
  have hmemT : ((seg.row_start + sr, seg.col_start + sc) : Nat × Nat) ∈
      typedCells hole seg t := by
    unfold typedCells
    rw [List.mem_filter]
    constructor
    · rw [mem_scanCells]
      rcases mem_SEGMENTS_cases seg hseg with rfl | rfl | rfl | rfl <;>
        simp [segTL, segTR, segBL, segBR] <;> omega
    · simp [htypeOf]
  obtain ⟨hfp, hcount⟩ := single_pixel_core hole seg hseg
    (seg.row_start + sr) (seg.col_start + sc) t htt hmemT htypeOf
  have hgen : generate_single_pixel_command hole seg.name sr sc =
      (if t = TYPE_90 then seg.addr_90 else seg.addr_10) ::
        (groupsFor t (segmentBits hole
          (deltaMatrix (seg.row_start + sr) (seg.col_start + sc)) seg t)).flatten :=
    generate_single_pixel_found hole seg.name seg sr sc _ hfindseg hbound hfp
  have hinfo : get_pixel_info hole seg.name sr sc =
      some ⟨some t, some (if t = TYPE_90 then seg.addr_90 else seg.addr_10),
        calculate_bit_index hole seg sr sc⟩ := by
    unfold get_pixel_info
    simp only [hfindseg]
    simp only [map_scan_to_type_coords, Nat.add_sub_cancel_left]
    rw [ht0]
  constructor
  · rw [hgen]
    exact hcount
  · refine ⟨_, hinfo, ?_⟩
    rw [hgen]
    rfl

/-- Witness for C3 at the top-left segment, pixel (0, 0), hole disabled. -/
theorem claim_C3_witness :
    dataBitCount
      ((generate_single_pixel_command false segTL.name 0 0).drop 1) = 1 ∧
    ∃ pi, get_pixel_info false segTL.name 0 0 = some pi ∧
      pi.address =
        some ((generate_single_pixel_command false segTL.name 0 0).headD 0) :=
  claim_C3 false segTL (by simp [SEGMENTS]) 0 0 (by decide) (by decide)
    TYPE_90 (by decide)

end PyFIS
